import Mathlib

/-!
Verification of the editing core of a sprite-sheet animation tool.

The development shallowly embeds the core data model and operations of the
repository: the geometry analyzer (`FrameAnalyzer.computeTrim` /
`FrameAnalyzer.computePivot`), the per-sheet analysis cache with its two
invalidation channels, the sparse per-frame override store
(`FrameOverridesStore` / `OverridesRegistry`) with pruning and versioned
serialization, the sparse slice keyframe timeline (`SliceStore.getRectAt`),
and the undo/redo `CommandStack`.

Conventions of the embedding:
* JavaScript numbers are modelled as `ℚ` (all operations involved are exact
  on rationals); frame counters and loop indices are `ℕ`, pixel-array
  indices and map keys produced by `parseInt` are `Int`.
* A `Uint8ClampedArray` is modelled as `Int → Option ℕ`: `none` is the
  `undefined` an out-of-range access yields, and a JS comparison
  `undefined >= t` is false.
* A JS `Map` is an association list without duplicate keys; `mapGet`,
  `mapSet` and `mapDelete` model `get`/`set`/`delete` (insertion order
  preserved, `set` on an existing key replaces in place).
* JS values read back from JSON are modelled by the inductive `JValue`
  (with a distinguished `undef`); a property access on `null`/`undefined`
  throws, so code performing such accesses lives in `Except Unit`.
-/

set_option maxRecDepth 40000

namespace SpriteCore

/-- A rectangle `{x, y, w, h}` with JS-number (rational) fields.  This is
the shape shared by `TrimBox`, `TrimOverride`, `SliceKeyRect` and the
structural `{x,y,w,h}` fallback-frame arguments in the source. -/
structure Rect4 where
  x : ℚ
  y : ℚ
  w : ℚ
  h : ℚ
  deriving DecidableEq, Repr

/-- `TrimBox`: tight bounding box of pixels whose alpha meets the
threshold, in sheet-pixel space. -/
abbrev TrimBox := Rect4

/-- `PivotPoint {x, y}` in sheet-pixel space. -/
structure PivotPoint where
  x : ℚ
  y : ℚ
  deriving DecidableEq, Repr

/-! ## Geometry analyzer (`src/core/FrameAnalyzer.ts`) -/

/-- Index of the alpha channel of the pixel at frame-local `(x, y)`:
`(globalY * strideWidth + globalX) * 4 + 3` with
`globalX = originX + x`, `globalY = originY + y`. -/
def alphaIndex (strideWidth originX originY : Int) (x y : ℕ) : Int :=
  ((originY + (y : Int)) * strideWidth + (originX + (x : Int))) * 4 + 3

/-- `pixels[idx] >= alphaThreshold`: an out-of-range access yields
`undefined` and the comparison is then false. -/
def alphaSatisfies (pixels : Int → Option ℕ) (alphaThreshold : ℚ) (idx : Int) : Bool :=
  match pixels idx with
  | some a => decide (alphaThreshold ≤ (a : ℚ))
  | none => false

/-- Whether the frame-local pixel `(x, y)` qualifies (alpha at or above the
threshold) for the scan of `computeTrim`. -/
def qualifiesAt (pixels : Int → Option ℕ) (alphaThreshold : ℚ)
    (strideWidth originX originY : Int) (x y : ℕ) : Bool :=
  alphaSatisfies pixels alphaThreshold (alphaIndex strideWidth originX originY x y)

/-- The running `minX / minY / maxX / maxY` of the scan in
`FrameAnalyzer.computeTrim`. -/
structure ScanState where
  minX : Int
  minY : Int
  maxX : Int
  maxY : Int
  deriving DecidableEq, Repr

/-- One iteration of the double scan loop: update the extremes when the
pixel qualifies (`if (x < minX) minX = x` etc. amounts to `min`/`max`). -/
def scanStep (q : ℕ → ℕ → Bool) (s : ScanState) (p : ℕ × ℕ) : ScanState :=
  if q p.1 p.2 then
    { minX := min s.minX (p.1 : Int), minY := min s.minY (p.2 : Int),
      maxX := max s.maxX (p.1 : Int), maxY := max s.maxY (p.2 : Int) }
  else s

/-- The unconditional extreme update (what `scanStep` does on a qualifying
pixel). -/
def scanUpd (s : ScanState) (p : ℕ × ℕ) : ScanState :=
  { minX := min s.minX (p.1 : Int), minY := min s.minY (p.2 : Int),
    maxX := max s.maxX (p.1 : Int), maxY := max s.maxY (p.2 : Int) }

/-- The frame's pixels in the row-major order of the double loop
(`for y … for x …`). -/
def frameCoords (frameWidth frameHeight : ℕ) : List (ℕ × ℕ) :=
  (List.range frameHeight).flatMap fun y => (List.range frameWidth).map fun x => (x, y)

namespace FrameAnalyzer

/-- `FrameAnalyzer.computeTrim`: scan every pixel of the frame's region,
tracking min/max x and y among pixels whose alpha is at least
`alphaThreshold`; return `none` when no pixel qualified, else the tight
box in sheet-pixel coordinates. -/
def computeTrim (pixels : Int → Option ℕ) (frameWidth frameHeight : ℕ)
    (strideWidth originX originY : Int) (alphaThreshold : ℚ := 1) : Option TrimBox :=
  let s := (frameCoords frameWidth frameHeight).foldl
    (scanStep (qualifiesAt pixels alphaThreshold strideWidth originX originY))
    { minX := (frameWidth : Int), minY := (frameHeight : Int), maxX := -1, maxY := -1 }
  if s.maxX = -1 then none
  else some { x := ((originX + s.minX : Int) : ℚ), y := ((originY + s.minY : Int) : ℚ),
              w := ((s.maxX - s.minX + 1 : Int) : ℚ), h := ((s.maxY - s.minY + 1 : Int) : ℚ) }

/-- `FrameAnalyzer.computePivot`: operate on the trim box when present,
else on the fallback frame.  The strategy is the runtime string; the final
branch is the source's `default` case. -/
def computePivot (trim : Option TrimBox) (strategy : String) (fallbackFrame : Rect4) :
    PivotPoint :=
  let box := trim.getD fallbackFrame
  if strategy = "bottom-center" then { x := box.x + box.w / 2, y := box.y + box.h }
  else if strategy = "center" then { x := box.x + box.w / 2, y := box.y + box.h / 2 }
  else if strategy = "top-left" then { x := box.x, y := box.y }
  else if strategy = "top-right" then { x := box.x + box.w, y := box.y }
  else { x := box.x + box.w / 2, y := box.y + box.h }

end FrameAnalyzer

/-! ### The spec's worked example (claim C3)

A 64×32 RGBA sheet whose pixels are opaque (alpha 255) exactly at sheet
coordinates `(2,2)`–`(11,11)`, transparent (alpha 0) elsewhere. -/

/-- The example sheet buffer: byte `idx` of a 64×32 RGBA array; alpha
bytes are 255 inside `(2,2)`–`(11,11)` and 0 elsewhere; every non-alpha
byte is 255 inside the opaque block and 0 elsewhere (their value is
irrelevant to the scan). -/
def examplePixels : Int → Option ℕ := fun idx =>
  if 0 ≤ idx ∧ idx < 64 * 32 * 4 then
    if 2 ≤ (idx / 4) % 64 ∧ (idx / 4) % 64 ≤ 11 ∧ 2 ≤ (idx / 4) / 64 ∧ (idx / 4) / 64 ≤ 11
    then some 255 else some 0
  else none

/-! ### Characterization of the scan -/

/-- The scan state `computeTrim` reaches after the double loop. -/
def scanResult (q : ℕ → ℕ → Bool) (fw fh : ℕ) : ScanState :=
  (frameCoords fw fh).foldl (scanStep q)
    { minX := (fw : Int), minY := (fh : Int), maxX := -1, maxY := -1 }

/-- The frame-local coordinates of qualifying pixels, in scan order. -/
def qualList (q : ℕ → ℕ → Bool) (fw fh : ℕ) : List (ℕ × ℕ) :=
  (frameCoords fw fh).filter fun p => q p.1 p.2

theorem computeTrim_eq_scanResult (pixels : Int → Option ℕ) (fw fh : ℕ)
    (sw ox oy : Int) (t : ℚ) :
    FrameAnalyzer.computeTrim pixels fw fh sw ox oy t =
      (if (scanResult (qualifiesAt pixels t sw ox oy) fw fh).maxX = -1 then none
       else some
        { x := ((ox + (scanResult (qualifiesAt pixels t sw ox oy) fw fh).minX : Int) : ℚ),
          y := ((oy + (scanResult (qualifiesAt pixels t sw ox oy) fw fh).minY : Int) : ℚ),
          w := (((scanResult (qualifiesAt pixels t sw ox oy) fw fh).maxX -
                 (scanResult (qualifiesAt pixels t sw ox oy) fw fh).minX + 1 : Int) : ℚ),
          h := (((scanResult (qualifiesAt pixels t sw ox oy) fw fh).maxY -
                 (scanResult (qualifiesAt pixels t sw ox oy) fw fh).minY + 1 : Int) : ℚ) }) :=
  rfl

theorem mem_frameCoords {fw fh : ℕ} {p : ℕ × ℕ} :
    p ∈ frameCoords fw fh ↔ p.1 < fw ∧ p.2 < fh := by
  constructor
  · intro h
    rcases List.mem_flatMap.mp h with ⟨y, hy, hm⟩
    rcases List.mem_map.mp hm with ⟨x, hx, rfl⟩
    exact ⟨List.mem_range.mp hx, List.mem_range.mp hy⟩
  · intro h
    refine List.mem_flatMap.mpr ⟨p.2, List.mem_range.mpr h.2, ?_⟩
    exact List.mem_map.mpr ⟨p.1, List.mem_range.mpr h.1, rfl⟩

theorem mem_qualList {q : ℕ → ℕ → Bool} {fw fh : ℕ} {p : ℕ × ℕ} :
    p ∈ qualList q fw fh ↔ p.1 < fw ∧ p.2 < fh ∧ q p.1 p.2 = true := by
  rw [qualList, List.mem_filter, mem_frameCoords, and_assoc]

theorem scan_foldl_eq (q : ℕ → ℕ → Bool) (l : List (ℕ × ℕ)) (s : ScanState) :
    l.foldl (scanStep q) s = (l.filter fun p => q p.1 p.2).foldl scanUpd s := by
  induction l generalizing s with
  | nil => rfl
  | cons a l ih =>
    by_cases h : q a.1 a.2
    · simp [List.filter_cons, h, scanStep, scanUpd, ih]
    · simp [List.filter_cons, h, scanStep, ih]

theorem scanUpd_foldl_minX (l : List (ℕ × ℕ)) (s : ScanState) :
    (l.foldl scanUpd s).minX = (l.map fun p => (p.1 : Int)).foldl min s.minX := by
  induction l generalizing s with
  | nil => rfl
  | cons a l ih => simp [scanUpd, ih]

theorem scanUpd_foldl_minY (l : List (ℕ × ℕ)) (s : ScanState) :
    (l.foldl scanUpd s).minY = (l.map fun p => (p.2 : Int)).foldl min s.minY := by
  induction l generalizing s with
  | nil => rfl
  | cons a l ih => simp [scanUpd, ih]

theorem scanUpd_foldl_maxX (l : List (ℕ × ℕ)) (s : ScanState) :
    (l.foldl scanUpd s).maxX = (l.map fun p => (p.1 : Int)).foldl max s.maxX := by
  induction l generalizing s with
  | nil => rfl
  | cons a l ih => simp [scanUpd, ih]

theorem scanUpd_foldl_maxY (l : List (ℕ × ℕ)) (s : ScanState) :
    (l.foldl scanUpd s).maxY = (l.map fun p => (p.2 : Int)).foldl max s.maxY := by
  induction l generalizing s with
  | nil => rfl
  | cons a l ih => simp [scanUpd, ih]

theorem foldl_min_le_init (l : List Int) (a : Int) : l.foldl min a ≤ a := by
  induction l generalizing a with
  | nil => simp
  | cons x l ih => exact le_trans (ih (min a x)) (min_le_left a x)

theorem foldl_min_le_mem (l : List Int) (a : Int) : ∀ x ∈ l, l.foldl min a ≤ x := by
  induction l generalizing a with
  | nil => simp
  | cons y l ih =>
    intro x hx
    rcases List.mem_cons.mp hx with h | h
    · subst h
      exact le_trans (foldl_min_le_init l (min a x)) (min_le_right a x)
    · exact ih (min a y) x h

theorem foldl_min_attained (l : List Int) (a : Int) :
    l.foldl min a = a ∨ l.foldl min a ∈ l := by
  induction l generalizing a with
  | nil => exact Or.inl rfl
  | cons x l ih =>
    rcases ih (min a x) with h | h
    · rw [List.foldl_cons, h]
      rcases min_choice a x with h' | h'
      · exact Or.inl h'
      · refine Or.inr ?_
        rw [h']
        exact List.mem_cons_self x l
    · exact Or.inr (List.mem_cons_of_mem x h)

theorem foldl_max_init_le (l : List Int) (a : Int) : a ≤ l.foldl max a := by
  induction l generalizing a with
  | nil => simp
  | cons x l ih => exact le_trans (le_max_left a x) (ih (max a x))

theorem foldl_max_mem_le (l : List Int) (a : Int) : ∀ x ∈ l, x ≤ l.foldl max a := by
  induction l generalizing a with
  | nil => simp
  | cons y l ih =>
    intro x hx
    rcases List.mem_cons.mp hx with h | h
    · subst h
      exact le_trans (le_max_right a x) (foldl_max_init_le l (max a x))
    · exact ih (max a y) x h

theorem foldl_max_attained (l : List Int) (a : Int) :
    l.foldl max a = a ∨ l.foldl max a ∈ l := by
  induction l generalizing a with
  | nil => exact Or.inl rfl
  | cons x l ih =>
    rcases ih (max a x) with h | h
    · rw [List.foldl_cons, h]
      rcases max_choice a x with h' | h'
      · exact Or.inl h'
      · refine Or.inr ?_
        rw [h']
        exact List.mem_cons_self x l
    · exact Or.inr (List.mem_cons_of_mem x h)

theorem scanResult_minX (q : ℕ → ℕ → Bool) (fw fh : ℕ) :
    (scanResult q fw fh).minX =
      ((qualList q fw fh).map fun p => (p.1 : Int)).foldl min (fw : Int) := by
  rw [scanResult, scan_foldl_eq, scanUpd_foldl_minX]
  rfl

theorem scanResult_minY (q : ℕ → ℕ → Bool) (fw fh : ℕ) :
    (scanResult q fw fh).minY =
      ((qualList q fw fh).map fun p => (p.2 : Int)).foldl min (fh : Int) := by
  rw [scanResult, scan_foldl_eq, scanUpd_foldl_minY]
  rfl

theorem scanResult_maxX (q : ℕ → ℕ → Bool) (fw fh : ℕ) :
    (scanResult q fw fh).maxX =
      ((qualList q fw fh).map fun p => (p.1 : Int)).foldl max (-1) := by
  rw [scanResult, scan_foldl_eq, scanUpd_foldl_maxX]
  rfl

theorem scanResult_maxY (q : ℕ → ℕ → Bool) (fw fh : ℕ) :
    (scanResult q fw fh).maxY =
      ((qualList q fw fh).map fun p => (p.2 : Int)).foldl max (-1) := by
  rw [scanResult, scan_foldl_eq, scanUpd_foldl_maxY]
  rfl

theorem scanResult_maxX_eq_neg_one_iff (q : ℕ → ℕ → Bool) (fw fh : ℕ) :
    (scanResult q fw fh).maxX = -1 ↔ qualList q fw fh = [] := by
  rw [scanResult_maxX]
  constructor
  · intro h
    by_contra hne
    rcases List.exists_mem_of_ne_nil _ hne with ⟨p, hp⟩
    have hle : (p.1 : Int) ≤ ((qualList q fw fh).map fun p => (p.1 : Int)).foldl max (-1) :=
      foldl_max_mem_le _ _ _ (List.mem_map.mpr ⟨p, hp, rfl⟩)
    omega
  · intro h
    rw [h]
    rfl

theorem qualList_eq_nil_iff (q : ℕ → ℕ → Bool) (fw fh : ℕ) :
    qualList q fw fh = [] ↔ ∀ x y : ℕ, x < fw → y < fh → q x y = false := by
  rw [qualList, List.filter_eq_nil_iff]
  constructor
  · intro h x y hx hy
    have := h (x, y) (mem_frameCoords.mpr ⟨hx, hy⟩)
    simpa using this
  · intro h p hp
    have := h p.1 p.2 (mem_frameCoords.mp hp).1 (mem_frameCoords.mp hp).2
    simp [this]

theorem scanResult_minX_le {q : ℕ → ℕ → Bool} {fw fh : ℕ} {p : ℕ × ℕ}
    (hp : p ∈ qualList q fw fh) : (scanResult q fw fh).minX ≤ (p.1 : Int) := by
  rw [scanResult_minX]
  exact foldl_min_le_mem _ _ _ (List.mem_map.mpr ⟨p, hp, rfl⟩)

theorem scanResult_minY_le {q : ℕ → ℕ → Bool} {fw fh : ℕ} {p : ℕ × ℕ}
    (hp : p ∈ qualList q fw fh) : (scanResult q fw fh).minY ≤ (p.2 : Int) := by
  rw [scanResult_minY]
  exact foldl_min_le_mem _ _ _ (List.mem_map.mpr ⟨p, hp, rfl⟩)

theorem scanResult_le_maxX {q : ℕ → ℕ → Bool} {fw fh : ℕ} {p : ℕ × ℕ}
    (hp : p ∈ qualList q fw fh) : (p.1 : Int) ≤ (scanResult q fw fh).maxX := by
  rw [scanResult_maxX]
  exact foldl_max_mem_le _ _ _ (List.mem_map.mpr ⟨p, hp, rfl⟩)

theorem scanResult_le_maxY {q : ℕ → ℕ → Bool} {fw fh : ℕ} {p : ℕ × ℕ}
    (hp : p ∈ qualList q fw fh) : (p.2 : Int) ≤ (scanResult q fw fh).maxY := by
  rw [scanResult_maxY]
  exact foldl_max_mem_le _ _ _ (List.mem_map.mpr ⟨p, hp, rfl⟩)

theorem scanResult_minX_attained {q : ℕ → ℕ → Bool} {fw fh : ℕ}
    (hne : qualList q fw fh ≠ []) :
    ∃ p ∈ qualList q fw fh, (scanResult q fw fh).minX = (p.1 : Int) := by
  have hatt := foldl_min_attained ((qualList q fw fh).map fun p => (p.1 : Int)) (fw : Int)
  rw [← scanResult_minX] at hatt
  rcases hatt with h | h
  · exfalso
    rcases List.exists_mem_of_ne_nil _ hne with ⟨p0, hp0⟩
    have h1 := scanResult_minX_le hp0
    have h2 : p0.1 < fw := (mem_qualList.mp hp0).1
    omega
  · rcases List.mem_map.mp h with ⟨p, hp, hpe⟩
    exact ⟨p, hp, hpe.symm⟩

theorem scanResult_minY_attained {q : ℕ → ℕ → Bool} {fw fh : ℕ}
    (hne : qualList q fw fh ≠ []) :
    ∃ p ∈ qualList q fw fh, (scanResult q fw fh).minY = (p.2 : Int) := by
  have hatt := foldl_min_attained ((qualList q fw fh).map fun p => (p.2 : Int)) (fh : Int)
  rw [← scanResult_minY] at hatt
  rcases hatt with h | h
  · exfalso
    rcases List.exists_mem_of_ne_nil _ hne with ⟨p0, hp0⟩
    have h1 := scanResult_minY_le hp0
    have h2 : p0.2 < fh := (mem_qualList.mp hp0).2.1
    omega
  · rcases List.mem_map.mp h with ⟨p, hp, hpe⟩
    exact ⟨p, hp, hpe.symm⟩

theorem scanResult_maxX_attained {q : ℕ → ℕ → Bool} {fw fh : ℕ}
    (hne : qualList q fw fh ≠ []) :
    ∃ p ∈ qualList q fw fh, (scanResult q fw fh).maxX = (p.1 : Int) := by
  have hatt := foldl_max_attained ((qualList q fw fh).map fun p => (p.1 : Int)) (-1)
  rw [← scanResult_maxX] at hatt
  rcases hatt with h | h
  · exfalso
    rcases List.exists_mem_of_ne_nil _ hne with ⟨p0, hp0⟩
    have h1 := scanResult_le_maxX hp0
    omega
  · rcases List.mem_map.mp h with ⟨p, hp, hpe⟩
    exact ⟨p, hp, hpe.symm⟩

theorem scanResult_maxY_attained {q : ℕ → ℕ → Bool} {fw fh : ℕ}
    (hne : qualList q fw fh ≠ []) :
    ∃ p ∈ qualList q fw fh, (scanResult q fw fh).maxY = (p.2 : Int) := by
  have hatt := foldl_max_attained ((qualList q fw fh).map fun p => (p.2 : Int)) (-1)
  rw [← scanResult_maxY] at hatt
  rcases hatt with h | h
  · exfalso
    rcases List.exists_mem_of_ne_nil _ hne with ⟨p0, hp0⟩
    have h1 := scanResult_le_maxY hp0
    omega
  · rcases List.mem_map.mp h with ⟨p, hp, hpe⟩
    exact ⟨p, hp, hpe.symm⟩

/-- C2: `computeTrim` returns `none` exactly when no pixel of the frame's
rectangular region has alpha at or above the threshold; otherwise it
returns, in sheet-pixel coordinates, a rectangle that contains every
qualifying pixel and is contained in every rectangle that contains all
qualifying pixels (so no smaller rectangle contains them all). -/
theorem computeTrim_minimal_rectangle (pixels : Int → Option ℕ) (fw fh : ℕ)
    (sw ox oy : Int) (t : ℚ) :
    (FrameAnalyzer.computeTrim pixels fw fh sw ox oy t = none ↔
      ∀ x y : ℕ, x < fw → y < fh → qualifiesAt pixels t sw ox oy x y = false) ∧
    (∀ r : TrimBox, FrameAnalyzer.computeTrim pixels fw fh sw ox oy t = some r →
      (∀ x y : ℕ, x < fw → y < fh → qualifiesAt pixels t sw ox oy x y = true →
        r.x ≤ (ox : ℚ) + (x : ℚ) ∧ (ox : ℚ) + (x : ℚ) ≤ r.x + r.w - 1 ∧
        r.y ≤ (oy : ℚ) + (y : ℚ) ∧ (oy : ℚ) + (y : ℚ) ≤ r.y + r.h - 1) ∧
      ∀ a b c d : ℚ,
        (∀ x y : ℕ, x < fw → y < fh → qualifiesAt pixels t sw ox oy x y = true →
          a ≤ (ox : ℚ) + (x : ℚ) ∧ (ox : ℚ) + (x : ℚ) ≤ a + c - 1 ∧
          b ≤ (oy : ℚ) + (y : ℚ) ∧ (oy : ℚ) + (y : ℚ) ≤ b + d - 1) →
        a ≤ r.x ∧ b ≤ r.y ∧ r.x + r.w ≤ a + c ∧ r.y + r.h ≤ b + d) := by
  have hrw := computeTrim_eq_scanResult pixels fw fh sw ox oy t
  set q := qualifiesAt pixels t sw ox oy with hq
  constructor
  · constructor
    · intro hnone
      rw [hrw] at hnone
      by_cases hmx : (scanResult q fw fh).maxX = -1
      · exact (qualList_eq_nil_iff q fw fh).mp
          ((scanResult_maxX_eq_neg_one_iff q fw fh).mp hmx)
      · simp [hmx] at hnone
    · intro hall
      rw [hrw, if_pos ((scanResult_maxX_eq_neg_one_iff q fw fh).mpr
        ((qualList_eq_nil_iff q fw fh).mpr hall))]
  · intro r hr
    rw [hrw] at hr
    by_cases hmx : (scanResult q fw fh).maxX = -1
    · simp [hmx] at hr
    · rw [if_neg hmx] at hr
      have hbox := (Option.some.injEq _ _).mp hr
      subst hbox
      have hne : qualList q fw fh ≠ [] :=
        fun h => hmx ((scanResult_maxX_eq_neg_one_iff q fw fh).mpr h)
      constructor
      · intro x y hx hy hqxy
        have hp : ((x, y) : ℕ × ℕ) ∈ qualList q fw fh :=
          mem_qualList.mpr ⟨hx, hy, hqxy⟩
        have h1 : ((scanResult q fw fh).minX : ℚ) ≤ (x : ℚ) := by
          exact_mod_cast scanResult_minX_le hp
        have h2 : ((x : ℚ)) ≤ ((scanResult q fw fh).maxX : ℚ) := by
          exact_mod_cast scanResult_le_maxX hp
        have h3 : ((scanResult q fw fh).minY : ℚ) ≤ (y : ℚ) := by
          exact_mod_cast scanResult_minY_le hp
        have h4 : ((y : ℚ)) ≤ ((scanResult q fw fh).maxY : ℚ) := by
          exact_mod_cast scanResult_le_maxY hp
        refine ⟨?_, ?_, ?_, ?_⟩ <;> · push_cast; linarith
      · intro a b c d hbound
        rcases scanResult_minX_attained hne with ⟨pxm, hpxm, hxm⟩
        rcases scanResult_maxX_attained hne with ⟨pxM, hpxM, hxM⟩
        rcases scanResult_minY_attained hne with ⟨pym, hpym, hym⟩
        rcases scanResult_maxY_attained hne with ⟨pyM, hpyM, hyM⟩
        obtain ⟨hxm1, hxm2, hxm3⟩ := mem_qualList.mp hpxm
        obtain ⟨hxM1, hxM2, hxM3⟩ := mem_qualList.mp hpxM
        obtain ⟨hym1, hym2, hym3⟩ := mem_qualList.mp hpym
        obtain ⟨hyM1, hyM2, hyM3⟩ := mem_qualList.mp hpyM
        have bxm := (hbound pxm.1 pxm.2 hxm1 hxm2 hxm3).1
        have bxM := (hbound pxM.1 pxM.2 hxM1 hxM2 hxM3).2.1
        have bym := (hbound pym.1 pym.2 hym1 hym2 hym3).2.2.1
        have byM := (hbound pyM.1 pyM.2 hyM1 hyM2 hyM3).2.2.2
        have exm : ((scanResult q fw fh).minX : ℚ) = (pxm.1 : ℚ) := by exact_mod_cast hxm
        have exM : ((scanResult q fw fh).maxX : ℚ) = (pxM.1 : ℚ) := by exact_mod_cast hxM
        have eym : ((scanResult q fw fh).minY : ℚ) = (pym.2 : ℚ) := by exact_mod_cast hym
        have eyM : ((scanResult q fw fh).maxY : ℚ) = (pyM.2 : ℚ) := by exact_mod_cast hyM
        refine ⟨?_, ?_, ?_, ?_⟩ <;> · push_cast; push_cast at exm exM eym eyM; linarith

/-- C3 counterexample: on the spec's example input — pixels opaque exactly
at sheet coordinates `(2,2)`–`(11,11)`, an 8×8 frame at origin `(0,0)` of a
64×32 sheet buffer — `computeTrim` does NOT return `{x:2,y:2,w:10,h:10}`:
the scan is clipped to the 8×8 frame region. -/
theorem computeTrim_specExample_refuted :
    FrameAnalyzer.computeTrim examplePixels 8 8 64 0 0 1 ≠
      some { x := 2, y := 2, w := 10, h := 10 } := by
  decide

/-- C3 amended: with the 8×8 frame of the spec's example the scan sees
only the pixels `(2,2)`–`(7,7)`, so `computeTrim` returns
`{x:2,y:2,w:6,h:6}` and the `center` pivot is `{x:5,y:5}`; the spec's
stated outputs `{x:2,y:2,w:10,h:10}` and `{x:7,y:7}` arise only when the
frame region covers the whole opaque block (e.g. a 12×12 frame). -/
theorem computeTrim_specExample_actual :
    FrameAnalyzer.computeTrim examplePixels 8 8 64 0 0 1 = some { x := 2, y := 2, w := 6, h := 6 } ∧
    FrameAnalyzer.computePivot (FrameAnalyzer.computeTrim examplePixels 8 8 64 0 0 1)
      "center" { x := 0, y := 0, w := 8, h := 8 } = { x := 5, y := 5 } ∧
    FrameAnalyzer.computeTrim examplePixels 12 12 64 0 0 1 = some { x := 2, y := 2, w := 10, h := 10 } ∧
    FrameAnalyzer.computePivot (FrameAnalyzer.computeTrim examplePixels 12 12 64 0 0 1)
      "center" { x := 0, y := 0, w := 12, h := 12 } = { x := 7, y := 7 } := by
  have h8 : FrameAnalyzer.computeTrim examplePixels 8 8 64 0 0 1 =
      some { x := 2, y := 2, w := 6, h := 6 } := by decide
  have h12 : FrameAnalyzer.computeTrim examplePixels 12 12 64 0 0 1 =
      some { x := 2, y := 2, w := 10, h := 10 } := by decide
  refine ⟨h8, ?_, h12, ?_⟩
  · rw [h8]
    norm_num [FrameAnalyzer.computePivot]
    decide
  · rw [h12]
    norm_num [FrameAnalyzer.computePivot]
    decide

/-! ## A JS `Map` as an association list

`get`/`set`/`delete` on insertion-ordered entries: `set` on a present key
replaces the value in place, on a fresh key appends; `delete` removes the
key's entry. -/

/-- `Map.get`: the value at the first entry with the given key. -/
def mapGet {κ α : Type} [DecidableEq κ] : List (κ × α) → κ → Option α
  | [], _ => none
  | (k', v) :: rest, k => if k' = k then some v else mapGet rest k

/-- `Map.set`: replace in place when the key is present, else append. -/
def mapSet {κ α : Type} [DecidableEq κ] : List (κ × α) → κ → α → List (κ × α)
  | [], k, v => [(k, v)]
  | (k', v') :: rest, k, v =>
      if k' = k then (k, v) :: rest else (k', v') :: mapSet rest k v

/-- `Map.delete`: drop the key's entry. -/
def mapDelete {κ α : Type} [DecidableEq κ] : List (κ × α) → κ → List (κ × α)
  | [], _ => []
  | (k', v') :: rest, k =>
      if k' = k then mapDelete rest k else (k', v') :: mapDelete rest k

theorem mapGet_set_self {κ α : Type} [DecidableEq κ] (m : List (κ × α)) (k : κ) (v : α) :
    mapGet (mapSet m k v) k = some v := by
  induction m with
  | nil => simp [mapGet, mapSet]
  | cons p rest ih =>
    by_cases h : p.1 = k
    · simp [mapSet, mapGet, h]
    · simp [mapSet, mapGet, h, ih]

theorem mapGet_set_other {κ α : Type} [DecidableEq κ] (m : List (κ × α)) (k k' : κ) (v : α)
    (h : k' ≠ k) : mapGet (mapSet m k v) k' = mapGet m k' := by
  have hk : ¬k = k' := fun he => h he.symm
  induction m with
  | nil => simp [mapGet, mapSet, hk]
  | cons p rest ih =>
    by_cases hp : p.1 = k
    · subst hp
      simp [mapSet, mapGet, hk]
    · simp [mapSet, mapGet, hp, ih]

theorem mapGet_delete_self {κ α : Type} [DecidableEq κ] (m : List (κ × α)) (k : κ) :
    mapGet (mapDelete m k) k = none := by
  induction m with
  | nil => rfl
  | cons p rest ih =>
    by_cases h : p.1 = k
    · simp [mapDelete, h, ih]
    · simp [mapDelete, mapGet, h, ih]

theorem mapGet_delete_other {κ α : Type} [DecidableEq κ] (m : List (κ × α)) (k k' : κ)
    (h : k' ≠ k) : mapGet (mapDelete m k) k' = mapGet m k' := by
  have hk : ¬k = k' := fun he => h he.symm
  induction m with
  | nil => rfl
  | cons p rest ih =>
    by_cases hp : p.1 = k
    · subst hp
      simp [mapDelete, mapGet, hk, ih]
    · simp [mapDelete, mapGet, hp, ih]

/-! ## Override store (`src/core/FrameOverridesStore.ts`) -/

/-- `PivotOverride { x, y }`. -/
abbrev PivotOverride := PivotPoint

/-- `TrimOverride { x, y, w, h }`. -/
abbrev TrimOverride := Rect4

/-- `OVERRIDES_VERSION = 1` (incremented when the schema changes); a JS
number, compared against the `__version` read back from JSON. -/
def OVERRIDES_VERSION : ℚ := 1

/-- `FrameOverrideData { pivot?, trim? }`: the per-frame override entry. -/
structure FrameOverrideData where
  pivot : Option PivotOverride := none
  trim : Option TrimOverride := none
  deriving DecidableEq, Repr

/-- `FrameOverridesStore`: overrides per frame index for a single sheet.
Frame indices are `Int` because deserialization keys them through
`parseInt`. -/
structure FrameOverridesStore where
  frameMap : List (Int × FrameOverrideData)
  deriving DecidableEq, Repr

namespace FrameOverridesStore

/-- The empty store (`new FrameOverridesStore()`). -/
def empty : FrameOverridesStore := ⟨[]⟩

/-- `setPivot`: fetch-or-create the frame's entry and set its `pivot`. -/
def setPivot (s : FrameOverridesStore) (frameIndex : Int) (pivot : PivotOverride) :
    FrameOverridesStore :=
  let existing := (mapGet s.frameMap frameIndex).getD {}
  ⟨mapSet s.frameMap frameIndex { existing with pivot := some pivot }⟩

/-- `getPivot`. -/
def getPivot (s : FrameOverridesStore) (frameIndex : Int) : Option PivotOverride :=
  (mapGet s.frameMap frameIndex).bind (·.pivot)

/-- `clearPivot`: delete the entry's `pivot` field; when no `trim` remains
either, delete the whole entry. -/
def clearPivot (s : FrameOverridesStore) (frameIndex : Int) : FrameOverridesStore :=
  match mapGet s.frameMap frameIndex with
  | none => s
  | some existing =>
      if existing.trim = none then ⟨mapDelete s.frameMap frameIndex⟩
      else ⟨mapSet s.frameMap frameIndex { existing with pivot := none }⟩

/-- `setTrim`. -/
def setTrim (s : FrameOverridesStore) (frameIndex : Int) (trim : TrimOverride) :
    FrameOverridesStore :=
  let existing := (mapGet s.frameMap frameIndex).getD {}
  ⟨mapSet s.frameMap frameIndex { existing with trim := some trim }⟩

/-- `getTrim`. -/
def getTrim (s : FrameOverridesStore) (frameIndex : Int) : Option TrimOverride :=
  (mapGet s.frameMap frameIndex).bind (·.trim)

/-- `clearTrim`: delete the entry's `trim` field; when no `pivot` remains
either, delete the whole entry. -/
def clearTrim (s : FrameOverridesStore) (frameIndex : Int) : FrameOverridesStore :=
  match mapGet s.frameMap frameIndex with
  | none => s
  | some existing =>
      if existing.pivot = none then ⟨mapDelete s.frameMap frameIndex⟩
      else ⟨mapSet s.frameMap frameIndex { existing with trim := none }⟩

/-- `pruneInvalid`: delete every entry the predicate rejects (the source
iterates collecting `toDelete`, then deletes those keys). -/
def pruneInvalid (s : FrameOverridesStore)
    (predicate : Int → FrameOverrideData → Bool) : FrameOverridesStore :=
  let toDelete := (s.frameMap.filter fun p => !predicate p.1 p.2).map (·.1)
  ⟨toDelete.foldl mapDelete s.frameMap⟩

end FrameOverridesStore

/-- C6: `clearTrim f` (resp. `clearPivot f`) removes only the `trim`
(resp. `pivot`) field of frame `f`'s entry, leaves every other frame's
entry untouched, and deletes `f`'s entry entirely when the other field is
absent; in particular `setTrim f r` followed by `clearTrim f`, when no
pivot override exists for `f`, leaves no entry for `f`. -/
theorem overrides_clear_sparseness (s : FrameOverridesStore) (f : Int) :
    ((s.clearTrim f).getPivot f = s.getPivot f ∧
     (s.clearTrim f).getTrim f = none ∧
     mapGet (s.clearTrim f).frameMap f =
       (match s.getPivot f with
        | some p => some { pivot := some p, trim := none }
        | none => none)) ∧
    ((s.clearPivot f).getTrim f = s.getTrim f ∧
     (s.clearPivot f).getPivot f = none ∧
     mapGet (s.clearPivot f).frameMap f =
       (match s.getTrim f with
        | some tr => some { pivot := none, trim := some tr }
        | none => none)) ∧
    (∀ g, g ≠ f → mapGet (s.clearTrim f).frameMap g = mapGet s.frameMap g ∧
                  mapGet (s.clearPivot f).frameMap g = mapGet s.frameMap g) ∧
    (∀ r : TrimOverride, s.getPivot f = none →
        mapGet ((s.setTrim f r).clearTrim f).frameMap f = none) := by
  refine ⟨?_, ?_, ?_, ?_⟩
  · cases h : mapGet s.frameMap f with
    | none =>
      simp [FrameOverridesStore.clearTrim, h, FrameOverridesStore.getPivot,
        FrameOverridesStore.getTrim]
    | some e =>
      cases hp : e.pivot with
      | none =>
        simp [FrameOverridesStore.clearTrim, h, hp, FrameOverridesStore.getPivot,
          FrameOverridesStore.getTrim, mapGet_delete_self]
      | some p =>
        simp [FrameOverridesStore.clearTrim, h, hp, FrameOverridesStore.getPivot,
          FrameOverridesStore.getTrim, mapGet_set_self]
  · cases h : mapGet s.frameMap f with
    | none =>
      simp [FrameOverridesStore.clearPivot, h, FrameOverridesStore.getPivot,
        FrameOverridesStore.getTrim]
    | some e =>
      cases ht : e.trim with
      | none =>
        simp [FrameOverridesStore.clearPivot, h, ht, FrameOverridesStore.getPivot,
          FrameOverridesStore.getTrim, mapGet_delete_self]
      | some tr =>
        simp [FrameOverridesStore.clearPivot, h, ht, FrameOverridesStore.getPivot,
          FrameOverridesStore.getTrim, mapGet_set_self]
  · intro g hg
    constructor
    · cases h : mapGet s.frameMap f with
      | none => simp [FrameOverridesStore.clearTrim, h]
      | some e =>
        cases hp : e.pivot with
        | none => simp [FrameOverridesStore.clearTrim, h, hp, mapGet_delete_other _ _ _ hg]
        | some p => simp [FrameOverridesStore.clearTrim, h, hp, mapGet_set_other _ _ _ _ hg]
    · cases h : mapGet s.frameMap f with
      | none => simp [FrameOverridesStore.clearPivot, h]
      | some e =>
        cases ht : e.trim with
        | none => simp [FrameOverridesStore.clearPivot, h, ht, mapGet_delete_other _ _ _ hg]
        | some tr => simp [FrameOverridesStore.clearPivot, h, ht, mapGet_set_other _ _ _ _ hg]
  · intro r hnp
    have hset : mapGet (s.setTrim f r).frameMap f =
        some { (mapGet s.frameMap f).getD {} with trim := some r } :=
      mapGet_set_self _ _ _
    have hpiv : ((mapGet s.frameMap f).getD ({} : FrameOverrideData)).pivot = none := by
      cases h : mapGet s.frameMap f with
      | none => rfl
      | some e =>
        have : e.pivot = none := by
          simpa [FrameOverridesStore.getPivot, h] using hnp
        simp [this]
    simp [FrameOverridesStore.clearTrim, hset, hpiv, mapGet_delete_self]

/-- Keys of a JS `Map` model are pairwise distinct. -/
abbrev keysNodup {κ α : Type} (m : List (κ × α)) : Prop := (m.map Prod.fst).Nodup

theorem keysNodup_map_snd {κ α β : Type} {m : List (κ × α)} (f : α → β)
    (h : keysNodup m) : keysNodup (m.map fun p => (p.1, f p.2)) := by
  unfold keysNodup at *
  simpa [List.map_map, Function.comp_def] using h

theorem mapGet_eq_some_of_mem {κ α : Type} [DecidableEq κ] {m : List (κ × α)}
    (hnd : keysNodup m) {k : κ} {v : α} (hm : (k, v) ∈ m) : mapGet m k = some v := by
  induction m with
  | nil => cases hm
  | cons p rest ih =>
    obtain ⟨hp, hrest⟩ := List.nodup_cons.mp hnd
    rcases List.mem_cons.mp hm with h | h
    · rw [← h]
      simp [mapGet]
    · have hk : p.1 ≠ k := by
        intro he
        exact hp (he ▸ List.mem_map.mpr ⟨(k, v), h, rfl⟩)
      simp [mapGet, hk, ih hrest h]

theorem mem_of_mapGet_eq_some {κ α : Type} [DecidableEq κ] {m : List (κ × α)}
    {k : κ} {v : α} (h : mapGet m k = some v) : (k, v) ∈ m := by
  induction m with
  | nil => simp [mapGet] at h
  | cons p rest ih =>
    by_cases hk : p.1 = k
    · rw [mapGet, if_pos hk] at h
      obtain rfl := (Option.some.injEq _ _).mp h
      exact List.mem_cons.mpr (Or.inl (by rw [← hk]))
    · rw [mapGet, if_neg hk] at h
      exact List.mem_cons.mpr (Or.inr (ih h))

theorem mapGet_foldl_delete {κ α : Type} [DecidableEq κ] (ks : List κ)
    (m : List (κ × α)) (k : κ) :
    mapGet (ks.foldl mapDelete m) k = if k ∈ ks then none else mapGet m k := by
  induction ks generalizing m with
  | nil => simp
  | cons a ks ih =>
    rw [List.foldl_cons, ih]
    by_cases h2 : k ∈ ks
    · simp [h2]
    · by_cases h : k = a
      · subst h
        simp [h2, mapGet_delete_self]
      · simp [h2, h, mapGet_delete_other _ _ _ h]

/-- `mapGet` through a value-only rewrite of the entries. -/
theorem mapGet_map_snd {κ α β : Type} [DecidableEq κ] (m : List (κ × α)) (f : α → β)
    (k : κ) : mapGet (m.map fun p => (p.1, f p.2)) k = (mapGet m k).map f := by
  induction m with
  | nil => rfl
  | cons p rest ih =>
    by_cases h : p.1 = k
    · simp [mapGet, h]
    · simp [mapGet, h, ih]

namespace FrameOverridesStore

/-- The options object of `pruneStaleOverrides`.  `maxFrameIndex` is an
`Int` like the store's keys; `sheetBounds` is `{width, height}`. -/
structure PruneOptions where
  maxFrameIndex : Option Int := none
  invalidGeometry : Bool := false
  sheetBounds : Option (ℚ × ℚ) := none
  removeEmptyEntries : Bool := false

/-- Strategy 2 of `pruneStaleOverrides`: delete the entry's `trim` field
when it is geometrically invalid (non-positive width/height or negative
coordinates). -/
def pruneTrimGeometry (opts : PruneOptions) (data : FrameOverrideData) : FrameOverrideData :=
  match opts.invalidGeometry, data.trim with
  | true, some tr =>
      if tr.w ≤ 0 ∨ tr.h ≤ 0 ∨ tr.x < 0 ∨ tr.y < 0 then { data with trim := none }
      else data
  | _, _ => data

/-- Strategy 3 of `pruneStaleOverrides`: delete the entry's `trim` field
when it lies entirely outside the supplied sheet bounds. -/
def pruneTrimBounds (opts : PruneOptions) (data : FrameOverrideData) : FrameOverrideData :=
  match opts.sheetBounds, data.trim with
  | some wh, some tr =>
      if tr.x ≥ wh.1 ∨ tr.y ≥ wh.2 ∨ tr.x + tr.w ≤ 0 ∨ tr.y + tr.h ≤ 0 then
        { data with trim := none }
      else data
  | _, _ => data

/-- Strategies 2 then 3, in source order. -/
def pruneEntryData (opts : PruneOptions) (data : FrameOverrideData) : FrameOverrideData :=
  pruneTrimBounds opts (pruneTrimGeometry opts data)

/-- Strategies 1 and 4: whether the (already field-pruned) entry is marked
for deletion — frame index at or beyond `maxFrameIndex`, or an entry left
with neither field when `removeEmptyEntries` is on. -/
def pruneShouldDelete (opts : PruneOptions) (frameIndex : Int)
    (data : FrameOverrideData) : Bool :=
  (match opts.maxFrameIndex with
   | some m => decide (frameIndex ≥ m)
   | none => false) ||
  (opts.removeEmptyEntries && decide (data.pivot = none) && decide (data.trim = none))

/-- `pruneStaleOverrides`: one pass over the map mutates each entry's
fields (strategies 2–3) and collects the indices to delete (strategies
1 and 4); the collected keys are then deleted and their number returned. -/
def pruneStaleOverrides (s : FrameOverridesStore) (opts : PruneOptions) :
    FrameOverridesStore × ℕ :=
  let mutated := s.frameMap.map fun p => (p.1, pruneEntryData opts p.2)
  let toDelete := (mutated.filter fun p => pruneShouldDelete opts p.1 p.2).map (·.1)
  (⟨toDelete.foldl mapDelete mutated⟩, toDelete.length)

end FrameOverridesStore

/-- Entry-level readback of `pruneStaleOverrides`: the surviving entry at
each index is the field-pruned entry when it was not marked for deletion. -/
theorem pruneStale_get (s : FrameOverridesStore) (opts : FrameOverridesStore.PruneOptions)
    (hnd : keysNodup s.frameMap) (idx : Int) :
    mapGet ((s.pruneStaleOverrides opts).1).frameMap idx =
      (match mapGet s.frameMap idx with
       | none => none
       | some d =>
           if FrameOverridesStore.pruneShouldDelete opts idx
               (FrameOverridesStore.pruneEntryData opts d) then none
           else some (FrameOverridesStore.pruneEntryData opts d)) := by
  have hmut : mapGet (s.frameMap.map fun p =>
      (p.1, FrameOverridesStore.pruneEntryData opts p.2)) idx =
      (mapGet s.frameMap idx).map (FrameOverridesStore.pruneEntryData opts) :=
    mapGet_map_snd _ _ _
  have hndm : keysNodup (s.frameMap.map fun p =>
      (p.1, FrameOverridesStore.pruneEntryData opts p.2)) :=
    keysNodup_map_snd _ hnd
  rw [FrameOverridesStore.pruneStaleOverrides]
  rw [mapGet_foldl_delete]
  cases hm : mapGet s.frameMap idx with
  | none =>
    rw [hm] at hmut
    split
    · rfl
    · simpa using hmut
  | some d =>
    rw [hm] at hmut
    by_cases hdel : FrameOverridesStore.pruneShouldDelete opts idx
        (FrameOverridesStore.pruneEntryData opts d) = true
    · have hmem : idx ∈ ((s.frameMap.map fun p =>
          (p.1, FrameOverridesStore.pruneEntryData opts p.2)).filter fun p =>
          FrameOverridesStore.pruneShouldDelete opts p.1 p.2).map (·.1) := by
        refine List.mem_map.mpr ⟨(idx, FrameOverridesStore.pruneEntryData opts d), ?_, rfl⟩
        refine List.mem_filter.mpr ⟨mem_of_mapGet_eq_some (by simpa using hmut), hdel⟩
      simp [hmem, hdel]
    · have hnmem : idx ∉ ((s.frameMap.map fun p =>
          (p.1, FrameOverridesStore.pruneEntryData opts p.2)).filter fun p =>
          FrameOverridesStore.pruneShouldDelete opts p.1 p.2).map (·.1) := by
        intro hmem
        rcases List.mem_map.mp hmem with ⟨p, hpf, hp1⟩
        obtain ⟨hpm, hpd⟩ := List.mem_filter.mp hpf
        have : mapGet (s.frameMap.map fun p =>
            (p.1, FrameOverridesStore.pruneEntryData opts p.2)) idx = some p.2 := by
          have := mapGet_eq_some_of_mem hndm (m := s.frameMap.map fun p =>
            (p.1, FrameOverridesStore.pruneEntryData opts p.2)) (hp1 ▸ hpm : (idx, p.2) ∈ _)
          exact this
        rw [hmut] at this
        have hp2 : p.2 = FrameOverridesStore.pruneEntryData opts d := by
          simpa using this.symm
        rw [hp1, hp2] at hpd
        exact hdel hpd
      simp [hnmem, hdel, hmut]

theorem pruneStale_get_none (s : FrameOverridesStore) (opts : FrameOverridesStore.PruneOptions)
    (hnd : keysNodup s.frameMap) {idx : Int} (hm : mapGet s.frameMap idx = none) :
    mapGet ((s.pruneStaleOverrides opts).1).frameMap idx = none := by
  rw [pruneStale_get s opts hnd idx, hm]

theorem pruneStale_get_some (s : FrameOverridesStore) (opts : FrameOverridesStore.PruneOptions)
    (hnd : keysNodup s.frameMap) {idx : Int} {d : FrameOverrideData}
    (hm : mapGet s.frameMap idx = some d) :
    mapGet ((s.pruneStaleOverrides opts).1).frameMap idx =
      (if FrameOverridesStore.pruneShouldDelete opts idx
          (FrameOverridesStore.pruneEntryData opts d) then none
       else some (FrameOverridesStore.pruneEntryData opts d)) := by
  rw [pruneStale_get s opts hnd idx, hm]

theorem pruneTrimGeometry_trim_spec {opts : FrameOverridesStore.PruneOptions}
    {d : FrameOverrideData} {tr : TrimOverride}
    (h : (FrameOverridesStore.pruneTrimGeometry opts d).trim = some tr) :
    d.trim = some tr ∧
    (opts.invalidGeometry = true → ¬(tr.w ≤ 0 ∨ tr.h ≤ 0 ∨ tr.x < 0 ∨ tr.y < 0)) := by
  unfold FrameOverridesStore.pruneTrimGeometry at h
  split at h
  next tr0 heq1 heq2 =>
    split at h
    next hbad => simp at h
    next hbad =>
      refine ⟨h, fun _ => ?_⟩
      rw [heq2] at h
      obtain rfl := (Option.some.injEq _ _).mp h
      exact hbad
  next x y hne =>
    refine ⟨h, fun hig => ?_⟩
    cases hdt : d.trim with
    | none => rw [hdt] at h; cases h
    | some tr0 => exact (hne tr0 hig hdt).elim

theorem pruneTrimBounds_trim_spec {opts : FrameOverridesStore.PruneOptions}
    {d : FrameOverrideData} {tr : TrimOverride}
    (h : (FrameOverridesStore.pruneTrimBounds opts d).trim = some tr) :
    d.trim = some tr ∧
    (∀ wh : ℚ × ℚ, opts.sheetBounds = some wh →
      ¬(tr.x ≥ wh.1 ∨ tr.y ≥ wh.2 ∨ tr.x + tr.w ≤ 0 ∨ tr.y + tr.h ≤ 0)) := by
  unfold FrameOverridesStore.pruneTrimBounds at h
  split at h
  next wh0 tr0 heq1 heq2 =>
    split at h
    next hbad => simp at h
    next hbad =>
      refine ⟨h, fun wh' hwh' => ?_⟩
      rw [heq2] at h
      obtain rfl := (Option.some.injEq _ _).mp h
      rw [heq1] at hwh'
      obtain rfl := (Option.some.injEq _ _).mp hwh'
      exact hbad
  next x y hne =>
    refine ⟨h, fun wh' hwh' => ?_⟩
    cases hdt : d.trim with
    | none => rw [hdt] at h; cases h
    | some tr0 => exact (hne wh' tr0 hwh' hdt).elim

theorem pruneStale_count (s : FrameOverridesStore) (opts : FrameOverridesStore.PruneOptions) :
    (s.pruneStaleOverrides opts).2 =
      (s.frameMap.filter fun p => FrameOverridesStore.pruneShouldDelete opts p.1
        (FrameOverridesStore.pruneEntryData opts p.2)).length := by
  rw [FrameOverridesStore.pruneStaleOverrides]
  simp [List.filter_map, Function.comp_def]

/-- C8: with distinct keys, `pruneStaleOverrides` leaves no entry at or
beyond the supplied `maxFrameIndex`, no surviving trim that is
geometrically invalid (when `invalidGeometry` is on), no surviving trim
entirely outside the supplied sheet bounds, and no surviving entry with
neither field (when `removeEmptyEntries` is on); its second component is
the number of entries removed. -/
theorem pruneStaleOverrides_spec (s : FrameOverridesStore)
    (opts : FrameOverridesStore.PruneOptions) (hnd : keysNodup s.frameMap) :
    (∀ m : Int, opts.maxFrameIndex = some m → ∀ idx : Int, m ≤ idx →
        mapGet ((s.pruneStaleOverrides opts).1).frameMap idx = none) ∧
    (opts.invalidGeometry = true → ∀ (idx : Int) (tr : TrimOverride),
        ((s.pruneStaleOverrides opts).1).getTrim idx = some tr →
        ¬(tr.w ≤ 0 ∨ tr.h ≤ 0 ∨ tr.x < 0 ∨ tr.y < 0)) ∧
    (∀ wh : ℚ × ℚ, opts.sheetBounds = some wh → ∀ (idx : Int) (tr : TrimOverride),
        ((s.pruneStaleOverrides opts).1).getTrim idx = some tr →
        ¬(tr.x ≥ wh.1 ∨ tr.y ≥ wh.2 ∨ tr.x + tr.w ≤ 0 ∨ tr.y + tr.h ≤ 0)) ∧
    (opts.removeEmptyEntries = true → ∀ (idx : Int) (e : FrameOverrideData),
        mapGet ((s.pruneStaleOverrides opts).1).frameMap idx = some e →
        e.pivot ≠ none ∨ e.trim ≠ none) ∧
    (s.pruneStaleOverrides opts).2 =
      (s.frameMap.filter fun p => FrameOverridesStore.pruneShouldDelete opts p.1
        (FrameOverridesStore.pruneEntryData opts p.2)).length := by
  have hget : ∀ idx e, mapGet ((s.pruneStaleOverrides opts).1).frameMap idx = some e →
      ∃ d, mapGet s.frameMap idx = some d ∧
        e = FrameOverridesStore.pruneEntryData opts d ∧
        FrameOverridesStore.pruneShouldDelete opts idx e = false := by
    intro idx e he
    cases hm : mapGet s.frameMap idx with
    | none =>
      rw [pruneStale_get_none s opts hnd hm] at he
      exact absurd he (by simp)
    | some d =>
      rw [pruneStale_get_some s opts hnd hm] at he
      by_cases hdel : FrameOverridesStore.pruneShouldDelete opts idx
          (FrameOverridesStore.pruneEntryData opts d) = true
      · rw [if_pos hdel] at he
        exact absurd he (by simp)
      · rw [if_neg hdel] at he
        obtain rfl := (Option.some.injEq _ _).mp he
        exact ⟨d, rfl, rfl, Bool.not_eq_true _ ▸ hdel⟩
  refine ⟨?_, ?_, ?_, ?_, pruneStale_count s opts⟩
  · intro m hm idx hle
    cases hmg : mapGet s.frameMap idx with
    | none => exact pruneStale_get_none s opts hnd hmg
    | some d =>
      rw [pruneStale_get_some s opts hnd hmg]
      have : FrameOverridesStore.pruneShouldDelete opts idx
          (FrameOverridesStore.pruneEntryData opts d) = true := by
        simp [FrameOverridesStore.pruneShouldDelete, hm, hle]
      simp [this]
  · intro hig idx tr htr
    obtain ⟨e, he, het⟩ : ∃ e, mapGet ((s.pruneStaleOverrides opts).1).frameMap idx = some e ∧
        e.trim = some tr := by
      unfold FrameOverridesStore.getTrim at htr
      cases hmg : mapGet ((s.pruneStaleOverrides opts).1).frameMap idx with
      | none => rw [hmg] at htr; exact absurd htr (by simp)
      | some e => rw [hmg] at htr; exact ⟨e, rfl, htr⟩
    obtain ⟨d, _, rfl, _⟩ := hget idx e he
    have hb := pruneTrimBounds_trim_spec het
    have hg := pruneTrimGeometry_trim_spec hb.1
    exact hg.2 hig
  · intro wh hwh idx tr htr
    obtain ⟨e, he, het⟩ : ∃ e, mapGet ((s.pruneStaleOverrides opts).1).frameMap idx = some e ∧
        e.trim = some tr := by
      unfold FrameOverridesStore.getTrim at htr
      cases hmg : mapGet ((s.pruneStaleOverrides opts).1).frameMap idx with
      | none => rw [hmg] at htr; exact absurd htr (by simp)
      | some e => rw [hmg] at htr; exact ⟨e, rfl, htr⟩
    obtain ⟨d, _, rfl, _⟩ := hget idx e he
    have hb := pruneTrimBounds_trim_spec het
    exact hb.2 wh hwh
  · intro hre idx e he
    obtain ⟨d, _, _, hdel⟩ := hget idx e he
    by_contra hboth
    push_neg at hboth
    rw [FrameOverridesStore.pruneShouldDelete, hre, hboth.1, hboth.2] at hdel
    simp at hdel

/-- A concrete store for the pruning witness: a valid entry at frame 0 and
a trim-only entry at frame 9. -/
def exPruneStore : FrameOverridesStore :=
  ⟨[(0, { pivot := some ⟨1, 2⟩, trim := some ⟨0, 0, 4, 4⟩ }),
    (9, { pivot := none, trim := some ⟨1, 1, 2, 2⟩ })]⟩

/-- Pruning options with every strategy enabled. -/
def exPruneOpts : FrameOverridesStore.PruneOptions :=
  { maxFrameIndex := some 5, invalidGeometry := true,
    sheetBounds := some (64, 32), removeEmptyEntries := true }

/-- C8 witness: the prune theorem applied at a concrete store drops the
entry beyond `maxFrameIndex = 5`. -/
theorem pruneStaleOverrides_spec_witness :
    mapGet ((exPruneStore.pruneStaleOverrides exPruneOpts).1).frameMap 9 = none :=
  (pruneStaleOverrides_spec exPruneStore exPruneOpts (by decide)).1 5 rfl 9 (by decide)

/-! ## Command stack (`CommandStack` in the renderer state manager)

A `Command` is a `{label, do(), undo()}` closure pair mutating a world of
type `σ`; the stack operations thread the world state explicitly. -/

/-- `Command {label, do(), undo()}`. -/
structure Command (σ : Type) where
  label : String
  doF : σ → σ
  undoF : σ → σ

/-- `CommandStack`: `done` (history) and `undone` (redo candidates), both
with their array top at the end. -/
structure CommandStack (σ : Type) where
  done : List (Command σ)
  undone : List (Command σ)

namespace CommandStack

/-- `new CommandStack()`. -/
def empty (σ : Type) : CommandStack σ := ⟨[], []⟩

/-- `push(cmd)`: run `cmd.do()`, append to `done`, clear `undone`. -/
def push (s : CommandStack σ) (w : σ) (cmd : Command σ) : CommandStack σ × σ :=
  (⟨s.done ++ [cmd], []⟩, cmd.doF w)

/-- `undo()`: pop `done`, run `undo()`, push onto `undone`; returns
whether anything happened. -/
def undo (s : CommandStack σ) (w : σ) : CommandStack σ × σ × Bool :=
  match s.done.getLast? with
  | some c => (⟨s.done.dropLast, s.undone ++ [c]⟩, c.undoF w, true)
  | none => (s, w, false)

/-- `redo()`: pop `undone`, run `do()`, push onto `done`. -/
def redo (s : CommandStack σ) (w : σ) : CommandStack σ × σ × Bool :=
  match s.undone.getLast? with
  | some c => (⟨s.done ++ [c], s.undone.dropLast⟩, c.doF w, true)
  | none => (s, w, false)

/-- N successive pushes. -/
def pushAll (s : CommandStack σ × σ) (cmds : List (Command σ)) : CommandStack σ × σ :=
  cmds.foldl (fun acc cmd => push acc.1 acc.2 cmd) s

end CommandStack

theorem pushAll_spec {σ : Type} (cmds : List (Command σ)) (s : CommandStack σ) (w : σ) :
    (CommandStack.pushAll (s, w) cmds).1.done.length = s.done.length + cmds.length ∧
    (CommandStack.pushAll (s, w) cmds).1.undone =
      (if cmds.isEmpty then s.undone else []) := by
  induction cmds generalizing s w with
  | nil => simp [CommandStack.pushAll]
  | cons c cmds ih =>
    have hstep : CommandStack.pushAll (s, w) (c :: cmds) =
        CommandStack.pushAll (⟨s.done ++ [c], []⟩, c.doF w) cmds := rfl
    rw [hstep]
    obtain ⟨h1, h2⟩ := ih ⟨s.done ++ [c], []⟩ (c.doF w)
    constructor
    · rw [h1]
      simp
      omega
    · rw [h2]
      by_cases hc : cmds.isEmpty <;> simp [hc]

/-- C5: `push` runs `cmd.do()` immediately, appends to `done` and clears
`undone`; from an empty stack, N pushes leave `done.length = N` and
`undone` empty; one `undo` then leaves `done.length = N-1` and
`undone.length = 1`; `undo`/`redo` are no-ops on an empty `done`/`undone`;
and any push clears `undone` back to empty. -/
theorem commandStack_spec (σ : Type) (cmds : List (Command σ)) (w : σ)
    (s : CommandStack σ) (cmd : Command σ) :
    ((s.push w cmd).2 = cmd.doF w ∧ (s.push w cmd).1.done = s.done ++ [cmd] ∧
      (s.push w cmd).1.undone = []) ∧
    ((CommandStack.pushAll (CommandStack.empty σ, w) cmds).1.done.length = cmds.length ∧
     (CommandStack.pushAll (CommandStack.empty σ, w) cmds).1.undone.length = 0) ∧
    (cmds ≠ [] →
      (((CommandStack.pushAll (CommandStack.empty σ, w) cmds).1.undo
          (CommandStack.pushAll (CommandStack.empty σ, w) cmds).2).1.done.length =
        cmds.length - 1 ∧
       ((CommandStack.pushAll (CommandStack.empty σ, w) cmds).1.undo
          (CommandStack.pushAll (CommandStack.empty σ, w) cmds).2).1.undone.length = 1)) ∧
    (∀ (u : List (Command σ)) (w' : σ),
      CommandStack.undo ⟨[], u⟩ w' = (⟨[], u⟩, w', false)) ∧
    (∀ (d : List (Command σ)) (w' : σ),
      CommandStack.redo ⟨d, []⟩ w' = (⟨d, []⟩, w', false)) := by
  obtain ⟨hlen, hund⟩ := pushAll_spec cmds (CommandStack.empty σ) w
  have hlen' : (CommandStack.pushAll (CommandStack.empty σ, w) cmds).1.done.length =
      cmds.length := by simpa [CommandStack.empty] using hlen
  refine ⟨⟨rfl, rfl, rfl⟩, ⟨hlen', ?_⟩, ?_, ?_, ?_⟩
  · rw [hund]
    by_cases hc : cmds.isEmpty <;> simp [hc, CommandStack.empty]
  · intro hne
    have hie : cmds.isEmpty = false := by
      cases cmds with
      | nil => exact absurd rfl hne
      | cons a l => rfl
    have hdne : (CommandStack.pushAll (CommandStack.empty σ, w) cmds).1.done ≠ [] := by
      intro h
      rw [h] at hlen'
      exact hne (List.length_eq_zero.mp hlen'.symm)
    cases hl : (CommandStack.pushAll (CommandStack.empty σ, w) cmds).1.done.getLast? with
    | none => exact absurd (List.getLast?_eq_none_iff.mp hl) hdne
    | some c =>
      rw [CommandStack.undo, hl]
      constructor
      · simp [List.length_dropLast, hlen']
      · simp [hund, hie]
  · intro u w'
    rfl
  · intro d w'
    rfl

/-! ## Slice timeline store (`src/core/Slices.ts`) -/

/-- `SliceKeyRect {x, y, w, h}`. -/
abbrev SliceKeyRect := Rect4

/-- `SliceType`. -/
inductive SliceType
  | hit
  | hurt
  | attachment
  | custom
  deriving DecidableEq, Repr

/-- `SliceData`: a named region with a sparse keyframe map
`frame → rect`. -/
structure SliceData where
  id : String
  name : String
  type : SliceType
  keys : List (ℕ × SliceKeyRect)
  color : String
  deriving DecidableEq, Repr

/-- `SliceStore`: slices by id. -/
structure SliceStore where
  slices : List (String × SliceData)
  deriving DecidableEq, Repr

/-- One step of the nearest-prior-key search of `getRectAt`
(`if (f <= frame && f > bestFrame) { best = r; bestFrame = f; }`). -/
def sliceBestStep (frame : ℕ) (acc : Option SliceKeyRect × Int) (kv : ℕ × SliceKeyRect) :
    Option SliceKeyRect × Int :=
  if (kv.1 : Int) ≤ (frame : Int) ∧ acc.2 < (kv.1 : Int) then (some kv.2, (kv.1 : Int))
  else acc

/-- The body of `getRectAt` once the slice is found: exact key match,
else the nearest prior key (`bestFrame` starts at `-1`), else `undefined`. -/
def sliceRectAtKeys (keys : List (ℕ × SliceKeyRect)) (frame : ℕ) : Option SliceKeyRect :=
  if (mapGet keys frame).isSome then mapGet keys frame
  else (keys.foldl (sliceBestStep frame) (none, -1)).1

namespace SliceStore

/-- `setKey(id, frame, rect)`: no-op when the id is unknown. -/
def setKey (s : SliceStore) (id : String) (frame : ℕ) (rect : SliceKeyRect) : SliceStore :=
  match mapGet s.slices id with
  | none => s
  | some sl => ⟨mapSet s.slices id { sl with keys := mapSet sl.keys frame rect }⟩

/-- `removeKey(id, frame)`. -/
def removeKey (s : SliceStore) (id : String) (frame : ℕ) : SliceStore :=
  match mapGet s.slices id with
  | none => s
  | some sl => ⟨mapSet s.slices id { sl with keys := mapDelete sl.keys frame }⟩

/-- `delete(id)`. -/
def deleteSlice (s : SliceStore) (id : String) : SliceStore :=
  ⟨mapDelete s.slices id⟩

/-- `getRectAt(id, frame)`. -/
def getRectAt (s : SliceStore) (id : String) (frame : ℕ) : Option SliceKeyRect :=
  match mapGet s.slices id with
  | none => none
  | some sl => sliceRectAtKeys sl.keys frame

end SliceStore

theorem sliceBestStep_foldl_cases (frame : ℕ) (l : List (ℕ × SliceKeyRect))
    (acc : Option SliceKeyRect × Int) :
    (l.foldl (sliceBestStep frame) acc = acc ∧
      ∀ kv ∈ l, (kv.1 : Int) ≤ (frame : Int) → (kv.1 : Int) ≤ acc.2) ∨
    (∃ kv ∈ l, l.foldl (sliceBestStep frame) acc = (some kv.2, (kv.1 : Int)) ∧
      (kv.1 : Int) ≤ (frame : Int) ∧ acc.2 < (kv.1 : Int) ∧
      ∀ kv' ∈ l, (kv'.1 : Int) ≤ (frame : Int) → (kv'.1 : Int) ≤ (kv.1 : Int)) := by
  induction l generalizing acc with
  | nil => exact Or.inl ⟨rfl, by simp⟩
  | cons a l ih =>
    rw [List.foldl_cons]
    by_cases ha : (a.1 : Int) ≤ (frame : Int) ∧ acc.2 < (a.1 : Int)
    · have hstep : sliceBestStep frame acc a = (some a.2, (a.1 : Int)) := by
        rw [sliceBestStep, if_pos ha]
      rw [hstep]
      rcases ih (some a.2, (a.1 : Int)) with ⟨h1, h2⟩ | ⟨kv, hkv, h1, h2, h3, h4⟩
      · refine Or.inr ⟨a, List.mem_cons_self _ _, h1, ha.1, ha.2, ?_⟩
        intro kv' hkv' hle
        rcases List.mem_cons.mp hkv' with h | h
        · rw [h]
        · exact h2 kv' h hle
      · refine Or.inr ⟨kv, List.mem_cons_of_mem _ hkv, h1, h2, lt_trans ha.2 h3, ?_⟩
        intro kv' hkv' hle
        rcases List.mem_cons.mp hkv' with h | h
        · rw [h]
          exact le_of_lt h3
        · exact h4 kv' h hle
    · have hstep : sliceBestStep frame acc a = acc := by
        rw [sliceBestStep, if_neg ha]
      rw [hstep]
      push_neg at ha
      rcases ih acc with ⟨h1, h2⟩ | ⟨kv, hkv, h1, h2, h3, h4⟩
      · refine Or.inl ⟨h1, ?_⟩
        intro kv' hkv' hle
        rcases List.mem_cons.mp hkv' with h | h
        · rw [h]
          exact ha (h ▸ hle)
        · exact h2 kv' h hle
      · refine Or.inr ⟨kv, List.mem_cons_of_mem _ hkv, h1, h2, h3, ?_⟩
        intro kv' hkv' hle
        rcases List.mem_cons.mp hkv' with h | h
        · rw [h]
          exact le_of_lt (lt_of_le_of_lt (ha (h ▸ hle)) h3)
        · exact h4 kv' h hle

/-- C4: for a slice with distinct key frames, `getRectAt` returns `none`
when every key lies strictly after the query frame, and otherwise returns
the rect of the greatest key at or before the query frame (in particular
the exact key's rect when one exists at that frame). -/
theorem getRectAt_spec (s : SliceStore) (id : String) (frame : ℕ) (sl : SliceData)
    (hsl : mapGet s.slices id = some sl) (hnd : keysNodup sl.keys) :
    ((∀ kv ∈ sl.keys, frame < kv.1) → s.getRectAt id frame = none) ∧
    (∀ (f₀ : ℕ) (r₀ : SliceKeyRect), (f₀, r₀) ∈ sl.keys → f₀ ≤ frame →
      (∀ kv ∈ sl.keys, kv.1 ≤ frame → kv.1 ≤ f₀) →
      s.getRectAt id frame = some r₀) := by
  have hunfold : s.getRectAt id frame = sliceRectAtKeys sl.keys frame := by
    simp only [SliceStore.getRectAt, hsl]
  constructor
  · intro hafter
    rw [hunfold, sliceRectAtKeys]
    have hm : mapGet sl.keys frame = none := by
      cases hmg : mapGet sl.keys frame with
      | none => rfl
      | some v =>
        have := hafter (frame, v) (mem_of_mapGet_eq_some hmg)
        omega
    rw [hm]
    simp only [Option.isSome_none, Bool.false_eq_true, if_false]
    rcases sliceBestStep_foldl_cases frame sl.keys (none, -1) with ⟨h1, _⟩ | ⟨kv, hkv, h1, h2, _, _⟩
    · rw [h1]
    · have := hafter kv hkv
      omega
  · intro f₀ r₀ hmem hle hbest
    rw [hunfold, sliceRectAtKeys]
    by_cases hexact : f₀ = frame
    · subst hexact
      rw [mapGet_eq_some_of_mem hnd hmem]
      rfl
    · have hm : mapGet sl.keys frame = none := by
        cases hmg : mapGet sl.keys frame with
        | none => rfl
        | some v =>
          have h1 := hbest (frame, v) (mem_of_mapGet_eq_some hmg) le_rfl
          omega
      rw [hm]
      simp only [Option.isSome_none, Bool.false_eq_true, if_false]
      rcases sliceBestStep_foldl_cases frame sl.keys (none, -1) with ⟨_, h2⟩ | ⟨kv, hkv, h1, h2, _, h4⟩
      · have := h2 (f₀, r₀) hmem (by exact_mod_cast hle)
        omega
      · have hkvle : kv.1 ≤ f₀ := hbest kv hkv (by exact_mod_cast h2)
        have hf₀le : (f₀ : Int) ≤ (kv.1 : Int) := h4 (f₀, r₀) hmem (by exact_mod_cast hle)
        have hkeq : kv.1 = f₀ := by omega
        have hkv' : (f₀, kv.2) ∈ sl.keys := by
          have : kv = (f₀, kv.2) := by
            rw [← hkeq]
          rw [← this]
          exact hkv
        have := mapGet_eq_some_of_mem hnd hkv'
        rw [mapGet_eq_some_of_mem hnd hmem] at this
        obtain hrect := (Option.some.injEq _ _).mp this
        rw [h1]
        simp [hrect]

/-- A slice with keys at frames {0, 5, 10}. -/
def exSlice1 : SliceData :=
  { id := "s1", name := "hitbox", type := SliceType.hit,
    keys := [(0, ⟨0, 0, 1, 1⟩), (5, ⟨5, 0, 1, 1⟩), (10, ⟨10, 0, 1, 1⟩)],
    color := "#6cf" }

/-- A slice whose first key is at frame 3. -/
def exSlice2 : SliceData :=
  { id := "s2", name := "late", type := SliceType.custom,
    keys := [(3, ⟨3, 3, 2, 2⟩)], color := "#fc6" }

/-- The slice store of C4's witness. -/
def exSliceStore : SliceStore := ⟨[("s1", exSlice1), ("s2", exSlice2)]⟩

/-- C4 witness: with keys at {0,5,10}, queries 4, 7 and 12 resolve to the
frame-0, frame-5 and frame-10 rects respectively, and a query before the
first key of a slice keyed from frame 3 resolves to nothing. -/
theorem getRectAt_spec_witness :
    exSliceStore.getRectAt "s1" 4 = some ⟨0, 0, 1, 1⟩ ∧
    exSliceStore.getRectAt "s1" 7 = some ⟨5, 0, 1, 1⟩ ∧
    exSliceStore.getRectAt "s1" 12 = some ⟨10, 0, 1, 1⟩ ∧
    exSliceStore.getRectAt "s2" 2 = none :=
  ⟨(getRectAt_spec exSliceStore "s1" 4 exSlice1 rfl (by decide)).2 0 ⟨0, 0, 1, 1⟩
      (by decide) (by decide) (by decide),
   (getRectAt_spec exSliceStore "s1" 7 exSlice1 rfl (by decide)).2 5 ⟨5, 0, 1, 1⟩
      (by decide) (by decide) (by decide),
   (getRectAt_spec exSliceStore "s1" 12 exSlice1 rfl (by decide)).2 10 ⟨10, 0, 1, 1⟩
      (by decide) (by decide) (by decide),
   (getRectAt_spec exSliceStore "s2" 2 exSlice2 rfl (by decide)).1 (by decide)⟩

/-! ## JSON values

The values `JSON.parse` can produce, plus the distinguished `undefined`
that property access on a missing field yields. -/

inductive JValue where
  | undef
  | jnull
  | jbool (b : Bool)
  | jnum (q : ℚ)
  | jstr (s : String)
  | jarr (elems : List JValue)
  | jobj (fields : List (String × JValue))

namespace JValue

/-- `typeof v === 'object'`: true for `null`, arrays and objects. -/
def isObjectType : JValue → Bool
  | jnull | jarr _ | jobj _ => true
  | _ => false

/-- JS truthiness. -/
def truthy : JValue → Bool
  | undef => false
  | jnull => false
  | jbool b => b
  | jnum q => decide (q ≠ 0)
  | jstr s => decide (s ≠ "")
  | jarr _ => true
  | jobj _ => true

/-- `typeof v === 'number'`. -/
def isNumber : JValue → Bool
  | jnum _ => true
  | _ => false

/-- Property access `v[name]`: throws a `TypeError` on `null`/`undefined`;
on an object the last binding of the name wins (JSON keeps the last
duplicate key); arrays expose numeric indices; other primitives expose
none of the names this code accesses. -/
def getProp : JValue → String → Except Unit JValue
  | undef, _ => .error ()
  | jnull, _ => .error ()
  | jobj fields, name =>
      .ok ((((fields.filter fun p => p.1 = name).getLast?).map Prod.snd).getD undef)
  | jarr elems, name =>
      .ok (match name.toNat? with
           | some i => (elems.get? i).getD undef
           | none => undef)
  | _, _ => .ok undef

/-- Total property accessor, used only where the receiver has already been
checked to be an object (the access cannot throw there). -/
def getPropD (v : JValue) (name : String) : JValue :=
  match v.getProp name with
  | .ok w => w
  | .error _ => undef

/-- `Object.keys(v)` paired with `v[key]`, in iteration order. -/
def jsEntries : JValue → List (String × JValue)
  | jobj fields => fields
  | jarr elems => elems.enum.map fun p => (toString p.1, p.2)
  | _ => []

end JValue

/-! ## `parseInt` and decimal numerals -/

/-- Value of a run of decimal digit characters (48 is the code of `0`). -/
def digitsToNat (cs : List Char) : ℕ :=
  cs.foldl (fun n c => 10 * n + (c.toNat - 48)) 0

/-- The sign-and-digits part of JS `parseInt` with radix 10, applied after
whitespace stripping: an optional sign, then the maximal run of digits;
`none` models `NaN`. -/
def parseIntCore (cs : List Char) : Option Int :=
  if ((if cs.head? = some '-' ∨ cs.head? = some '+' then cs.tail else cs).takeWhile
      Char.isDigit).isEmpty then none
  else
    some ((if cs.head? = some '-' then -1 else 1) *
      (digitsToNat ((if cs.head? = some '-' ∨ cs.head? = some '+' then cs.tail
        else cs).takeWhile Char.isDigit) : Int))

/-- Model of JS `parseInt(s)` with radix 10. -/
def parseIntJs (s : String) : Option Int :=
  parseIntCore (s.data.dropWhile fun c => c = ' ' ∨ c = '\t' ∨ c = '\n' ∨ c = '\r')

/-- The decimal digit characters of `n`, most significant first. -/
def natDigits (n : ℕ) : List Char :=
  if h : n < 10 then [Nat.digitChar n]
  else natDigits (n / 10) ++ [Nat.digitChar (n % 10)]
  decreasing_by exact Nat.div_lt_self (by omega) (by omega)

theorem natDigits_small {n : ℕ} (h : n < 10) : natDigits n = [Nat.digitChar n] := by
  rw [natDigits]
  exact dif_pos h

theorem natDigits_large {n : ℕ} (h : ¬n < 10) :
    natDigits n = natDigits (n / 10) ++ [Nat.digitChar (n % 10)] := by
  rw [natDigits]
  exact dif_neg h

theorem digitChar_spec : ∀ n < 10, (Nat.digitChar n).isDigit = true ∧
    (Nat.digitChar n).toNat - 48 = n := by decide

theorem natDigits_ne_nil (n : ℕ) : natDigits n ≠ [] := by
  by_cases h : n < 10
  · rw [natDigits_small h]
    simp
  · rw [natDigits_large h]
    simp

theorem natDigits_all_digits (n : ℕ) : ∀ c ∈ natDigits n, c.isDigit = true := by
  induction n using Nat.strong_induction_on with
  | _ n ih =>
    by_cases h : n < 10
    · rw [natDigits_small h]
      intro c hc
      rw [List.mem_singleton.mp hc]
      exact (digitChar_spec n h).1
    · rw [natDigits_large h]
      intro c hc
      rcases List.mem_append.mp hc with hc | hc
      · exact ih (n / 10) (Nat.div_lt_self (by omega) (by omega)) c hc
      · rw [List.mem_singleton.mp hc]
        exact (digitChar_spec (n % 10) (Nat.mod_lt _ (by omega))).1

theorem digitsToNat_append_singleton (ds : List Char) (c : Char) :
    digitsToNat (ds ++ [c]) = 10 * digitsToNat ds + (c.toNat - 48) := by
  rw [digitsToNat, List.foldl_append]
  rfl

theorem digitsToNat_natDigits (n : ℕ) : digitsToNat (natDigits n) = n := by
  induction n using Nat.strong_induction_on with
  | _ n ih =>
    by_cases h : n < 10
    · rw [natDigits_small h]
      have h2 := (digitChar_spec n h).2
      rw [digitsToNat]
      simpa using h2
    · rw [natDigits_large h, digitsToNat_append_singleton,
        ih (n / 10) (Nat.div_lt_self (by omega) (by omega)),
        (digitChar_spec (n % 10) (Nat.mod_lt _ (by omega))).2]
      omega

theorem toDigitsCore_eq_natDigits (fuel : ℕ) : ∀ (n : ℕ) (ds : List Char), n < fuel →
    Nat.toDigitsCore 10 fuel n ds = natDigits n ++ ds := by
  induction fuel with
  | zero => omega
  | succ fuel ih =>
    intro n ds h
    rw [Nat.toDigitsCore]
    by_cases h10 : n / 10 = 0
    · have hn : n < 10 := by omega
      rw [if_pos h10, natDigits_small hn, Nat.mod_eq_of_lt hn]
      rfl
    · have hn : ¬n < 10 := by omega
      have hlt : n / 10 < fuel := by
        have hd := Nat.div_lt_self (show 0 < n by omega) (show 1 < 10 by omega)
        omega
      rw [if_neg h10, ih (n / 10) (Nat.digitChar (n % 10) :: ds) hlt,
        natDigits_large hn, List.append_assoc]
      rfl

theorem nat_repr_data (n : ℕ) : (Nat.repr n).data = natDigits n := by
  rw [Nat.repr, Nat.toDigits, toDigitsCore_eq_natDigits (n + 1) n [] (by omega)]
  simp [List.asString]

theorem takeWhile_all {p : Char → Bool} {l : List Char} (h : ∀ c ∈ l, p c = true) :
    l.takeWhile p = l := by
  induction l with
  | nil => rfl
  | cons c l ih =>
    rw [List.takeWhile_cons, h c (List.mem_cons_self _ _), if_pos rfl,
      ih fun x hx => h x (List.mem_cons_of_mem _ hx)]

theorem isDigit_not_special {c : Char} (h : c.isDigit = true) :
    ¬(c = ' ' ∨ c = '\t' ∨ c = '\n' ∨ c = '\r') ∧ c ≠ '-' ∧ c ≠ '+' := by
  refine ⟨fun h2 => ?_, fun h2 => ?_, fun h2 => ?_⟩
  · rcases h2 with h2 | h2 | h2 | h2 <;> subst h2 <;> simp [Char.isDigit] at h
  · subst h2
    simp [Char.isDigit] at h
  · subst h2
    simp [Char.isDigit] at h

theorem parseIntCore_digits (c : Char) (cs : List Char)
    (hd : ∀ x ∈ c :: cs, x.isDigit = true) :
    parseIntCore (c :: cs) = some (digitsToNat (c :: cs) : Int) := by
  obtain ⟨hws, hminus, hplus⟩ := isDigit_not_special (hd c (List.mem_cons_self _ _))
  have h1 : ¬((c :: cs).head? = some '-' ∨ (c :: cs).head? = some '+') := by
    simp [hminus, hplus]
  have h2 : ¬((c :: cs).head? = some '-') := by simp [hminus]
  rw [parseIntCore, if_neg h1, takeWhile_all hd, if_neg h2]
  rw [if_neg (by simp)]
  simp

theorem parseIntCore_neg (ds : List Char) (hne : ds ≠ [])
    (hd : ∀ c ∈ ds, c.isDigit = true) :
    parseIntCore ('-' :: ds) = some (-(digitsToNat ds : Int)) := by
  have h1 : (('-' :: ds).head? = some '-' ∨ ('-' :: ds).head? = some '+') := Or.inl rfl
  have htail : ('-' :: ds).tail = ds := rfl
  rw [parseIntCore, if_pos h1, htail, takeWhile_all hd]
  rw [if_neg (by simpa using hne)]
  rw [if_pos (show ('-' :: ds).head? = some '-' from rfl)]
  simp

theorem parseIntJs_toString_int (i : Int) : parseIntJs (toString i) = some i := by
  cases i with
  | ofNat n =>
    have hdata : (toString (Int.ofNat n)).data = natDigits n := nat_repr_data n
    rw [parseIntJs, hdata]
    obtain ⟨c, cs, hcons⟩ := List.exists_cons_of_ne_nil (natDigits_ne_nil n)
    have hdig : ∀ x ∈ c :: cs, x.isDigit = true := by
      rw [← hcons]
      exact natDigits_all_digits n
    rw [hcons, List.dropWhile_cons,
      if_neg (by simpa using (isDigit_not_special (hdig c (List.mem_cons_self _ _))).1),
      parseIntCore_digits c cs hdig, ← hcons, digitsToNat_natDigits]
    rfl
  | negSucc n =>
    have hdata : (toString (Int.negSucc n)).data = '-' :: natDigits (n + 1) := by
      show (("-" ++ Nat.repr (n + 1)) : String).data = '-' :: natDigits (n + 1)
      rw [String.data_append, nat_repr_data]
      rfl
    rw [parseIntJs, hdata, List.dropWhile_cons, if_neg (by decide),
      parseIntCore_neg (natDigits (n + 1)) (natDigits_ne_nil (n + 1))
        (natDigits_all_digits (n + 1)),
      digitsToNat_natDigits]
    simp [Int.negSucc_eq]

/-! ## Override store serialization (`toJSON` / `fromJSON`) -/

/-- Read an entry's `pivot` field:
`entry.pivot && typeof entry.pivot.x === 'number' && typeof entry.pivot.y === 'number'`.
The first access throws when `entry` is nullish; the inner accesses cannot
throw because a truthy value is not nullish. -/
def readPivotJs (entry : JValue) : Except Unit (Option PivotOverride) :=
  match entry.getProp "pivot" with
  | .error e => .error e
  | .ok pv =>
      if pv.truthy then
        match pv.getProp "x", pv.getProp "y" with
        | .ok (.jnum x), .ok (.jnum y) => .ok (some ⟨x, y⟩)
        | .error e, _ => .error e
        | _, .error e => .error e
        | _, _ => .ok none
      else .ok none

/-- Read an entry's `trim` field:
`entry.trim && ['x','y','w','h'].every(f => typeof entry.trim[f] === 'number')`. -/
def readTrimJs (entry : JValue) : Except Unit (Option TrimOverride) :=
  match entry.getProp "trim" with
  | .error e => .error e
  | .ok tv =>
      if tv.truthy then
        match tv.getProp "x", tv.getProp "y", tv.getProp "w", tv.getProp "h" with
        | .ok (.jnum x), .ok (.jnum y), .ok (.jnum w), .ok (.jnum h) =>
            .ok (some ⟨x, y, w, h⟩)
        | .error e, _, _, _ => .error e
        | _, .error e, _, _ => .error e
        | _, _, .error e, _ => .error e
        | _, _, _, .error e => .error e
        | _, _, _, _ => .ok none
      else .ok none

/-- The body of the `Object.keys(obj).forEach` of
`FrameOverridesStore.fromJSON`: skip keys `parseInt` cannot read, validate
each field, store the entry only when a field survived. -/
def fromJSONStep (m : List (Int × FrameOverrideData)) (kv : String × JValue) :
    Except Unit (List (Int × FrameOverrideData)) :=
  match parseIntJs kv.1 with
  | none => .ok m
  | some idx =>
      match readPivotJs kv.2, readTrimJs kv.2 with
      | .ok pivot, .ok trim =>
          if pivot.isSome || trim.isSome then .ok (mapSet m idx ⟨pivot, trim⟩)
          else .ok m
      | .error e, _ => .error e
      | _, .error e => .error e

/-- `FrameOverridesStore.fromJSON`: guarded by
`obj && typeof obj === 'object'`; an exception thrown while reading an
entry propagates out of the `forEach`. -/
def FrameOverridesStore.fromJSON (obj : JValue) : Except Unit FrameOverridesStore :=
  if obj.truthy && obj.isObjectType then
    match obj.jsEntries.foldlM fromJSONStep [] with
    | .ok m => .ok ⟨m⟩
    | .error e => .error e
  else .ok ⟨[]⟩

/-- Serialization of one entry: only present fields appear in the JSON
object. -/
def FrameOverrideData.toJSON (d : FrameOverrideData) : JValue :=
  .jobj
    ((match d.pivot with
      | some p => [("pivot", JValue.jobj [("x", .jnum p.x), ("y", .jnum p.y)])]
      | none => []) ++
     (match d.trim with
      | some t => [("trim", JValue.jobj
          [("x", .jnum t.x), ("y", .jnum t.y), ("w", .jnum t.w), ("h", .jnum t.h)])]
      | none => []))

/-- `FrameOverridesStore.toJSON`: the frames object, keyed by the decimal
string of each frame index. -/
def FrameOverridesStore.toJSON (s : FrameOverridesStore) : JValue :=
  .jobj (s.frameMap.map fun p => (toString p.1, p.2.toJSON))

theorem getProp_ok (v : JValue) (h1 : v ≠ .jnull) (h2 : v ≠ .undef) (name : String) :
    ∃ w, v.getProp name = .ok w := by
  cases v with
  | undef => exact absurd rfl h2
  | jnull => exact absurd rfl h1
  | jbool b => exact ⟨_, rfl⟩
  | jnum q => exact ⟨_, rfl⟩
  | jstr s => exact ⟨_, rfl⟩
  | jarr elems => exact ⟨_, rfl⟩
  | jobj fields => exact ⟨_, rfl⟩

theorem truthy_not_nullish {v : JValue} (h : v.truthy = true) :
    v ≠ .jnull ∧ v ≠ .undef := by
  cases v <;> simp_all [JValue.truthy]

theorem readPivotJs_ok (entry : JValue) (h1 : entry ≠ .jnull) (h2 : entry ≠ .undef) :
    ∃ o, readPivotJs entry = .ok o := by
  obtain ⟨pv, hpv⟩ := getProp_ok entry h1 h2 "pivot"
  simp only [readPivotJs, hpv]
  by_cases ht : pv.truthy
  · obtain ⟨hn1, hn2⟩ := truthy_not_nullish ht
    obtain ⟨px, hpx⟩ := getProp_ok pv hn1 hn2 "x"
    obtain ⟨py, hpy⟩ := getProp_ok pv hn1 hn2 "y"
    rw [if_pos ht, hpx, hpy]
    cases px <;> cases py <;> exact ⟨_, rfl⟩
  · rw [if_neg ht]
    exact ⟨_, rfl⟩

theorem readTrimJs_ok (entry : JValue) (h1 : entry ≠ .jnull) (h2 : entry ≠ .undef) :
    ∃ o, readTrimJs entry = .ok o := by
  obtain ⟨tv, htv⟩ := getProp_ok entry h1 h2 "trim"
  simp only [readTrimJs, htv]
  by_cases ht : tv.truthy
  · obtain ⟨hn1, hn2⟩ := truthy_not_nullish ht
    obtain ⟨tx, htx⟩ := getProp_ok tv hn1 hn2 "x"
    obtain ⟨ty, hty⟩ := getProp_ok tv hn1 hn2 "y"
    obtain ⟨tw, htw⟩ := getProp_ok tv hn1 hn2 "w"
    obtain ⟨th, hth⟩ := getProp_ok tv hn1 hn2 "h"
    rw [if_pos ht, htx, hty, htw, hth]
    cases tx <;> cases ty <;> cases tw <;> cases th <;> exact ⟨_, rfl⟩
  · rw [if_neg ht]
    exact ⟨_, rfl⟩

theorem mem_mapSet {κ α : Type} [DecidableEq κ] {k : κ} {v : α} {p : κ × α} :
    ∀ {m : List (κ × α)}, p ∈ mapSet m k v → p ∈ m ∨ p = (k, v) := by
  intro m
  induction m with
  | nil =>
    intro h
    rw [mapSet] at h
    exact Or.inr (List.mem_singleton.mp h)
  | cons q rest ih =>
    obtain ⟨k', v'⟩ := q
    intro h
    rw [mapSet] at h
    by_cases hq : k' = k
    · rw [if_pos hq] at h
      rcases List.mem_cons.mp h with h | h
      · exact Or.inr h
      · exact Or.inl (List.mem_cons_of_mem _ h)
    · rw [if_neg hq] at h
      rcases List.mem_cons.mp h with h | h
      · refine Or.inl ?_
        rw [h]
        exact List.mem_cons_self _ _
      · rcases ih h with h2 | h2
        · exact Or.inl (List.mem_cons_of_mem _ h2)
        · exact Or.inr h2

theorem fromJSONStep_sparse {m m1 : List (Int × FrameOverrideData)} {kv : String × JValue}
    (h : fromJSONStep m kv = .ok m1)
    (hm : ∀ p ∈ m, p.2.pivot.isSome ∨ p.2.trim.isSome) :
    ∀ p ∈ m1, p.2.pivot.isSome ∨ p.2.trim.isSome := by
  rw [fromJSONStep] at h
  split at h
  · cases h
    exact hm
  · split at h
    next pivot trim heq1 heq2 =>
      split at h
      next hsome =>
        cases h
        intro p hp
        rcases mem_mapSet hp with h2 | h2
        · exact hm p h2
        · rw [h2]
          simpa using hsome
      next hsome =>
        cases h
        exact hm
    next e h1 h2 => exact Except.noConfusion h
    next e h1 h2 => exact Except.noConfusion h

theorem fromJSON_fold_sparse :
    ∀ (l : List (String × JValue)) (m m' : List (Int × FrameOverrideData)),
      l.foldlM fromJSONStep m = .ok m' →
      (∀ p ∈ m, p.2.pivot.isSome ∨ p.2.trim.isSome) →
      ∀ p ∈ m', p.2.pivot.isSome ∨ p.2.trim.isSome := by
  intro l
  induction l with
  | nil =>
    intro m m' h hm
    have h' : (Except.ok m : Except Unit _) = .ok m' := h
    obtain rfl := (Except.ok.injEq _ _).mp h'
    exact hm
  | cons kv l ih =>
    intro m m' h hm
    rw [List.foldlM_cons] at h
    cases hstep : fromJSONStep m kv with
    | error e =>
      rw [hstep] at h
      exact absurd h (by simp [Bind.bind, Except.bind])
    | ok m1 =>
      rw [hstep] at h
      have h' : l.foldlM fromJSONStep m1 = .ok m' := h
      exact ih m1 m' h' (fromJSONStep_sparse hstep hm)

theorem fromJSON_fold_ok :
    ∀ (l : List (String × JValue)) (m : List (Int × FrameOverrideData)),
      (∀ kv ∈ l, (parseIntJs kv.1).isSome = true → kv.2 ≠ .jnull ∧ kv.2 ≠ .undef) →
      ∃ m', l.foldlM fromJSONStep m = .ok m' := by
  intro l
  induction l with
  | nil =>
    intro m _
    exact ⟨m, rfl⟩
  | cons kv l ih =>
    intro m hl
    have hstep : ∃ m1, fromJSONStep m kv = .ok m1 := by
      cases hp : parseIntJs kv.1 with
      | none =>
        refine ⟨m, ?_⟩
        simp only [fromJSONStep, hp]
      | some idx =>
        have hkv := hl kv (List.mem_cons_self _ _) (by simp [hp])
        obtain ⟨po, hpo⟩ := readPivotJs_ok kv.2 hkv.1 hkv.2
        obtain ⟨tro, htro⟩ := readTrimJs_ok kv.2 hkv.1 hkv.2
        simp only [fromJSONStep, hp, hpo, htro]
        by_cases hs : (po.isSome || tro.isSome) = true
        · rw [if_pos hs]
          exact ⟨_, rfl⟩
        · rw [if_neg hs]
          exact ⟨m, rfl⟩
    obtain ⟨m1, hm1⟩ := hstep
    obtain ⟨m', hm'⟩ := ih m1 fun kv' h' hp => hl kv' (List.mem_cons_of_mem _ h') hp
    refine ⟨m', ?_⟩
    rw [List.foldlM_cons, hm1]
    exact hm'

/-- C10 counterexample: on the object `{"0": null}` the `entry.pivot`
access inside `FrameOverridesStore.fromJSON` is performed on `null` and
throws a TypeError, so "for arbitrary object input it never throws" is
false. -/
theorem overrides_fromJSON_null_throws :
    FrameOverridesStore.fromJSON (JValue.jobj [("0", JValue.jnull)]) = .error () := rfl

/-- C10 amended: `FrameOverridesStore.fromJSON` succeeds whenever no
nullish value sits at a `parseInt`-able key (a null/undefined entry value
makes it throw, which `OverridesRegistry.fromJSON` catches at sheet
granularity); every store it returns satisfies the sparseness invariant —
each stored frame entry retains a pivot or a trim; and fields with
non-numeric components are dropped per-field, as on the object
`{"3": {pivot: {x:1, y:"nope"}, trim: {x:0,y:0,w:2,h:2}}}` whose pivot is
dropped while its trim is kept. -/
theorem overrides_fromJSON_spec (v : JValue) :
    ((∀ kv ∈ v.jsEntries, (parseIntJs kv.1).isSome = true →
        kv.2 ≠ JValue.jnull ∧ kv.2 ≠ JValue.undef) →
      ∃ s, FrameOverridesStore.fromJSON v = .ok s) ∧
    (∀ s, FrameOverridesStore.fromJSON v = .ok s →
      ∀ p ∈ s.frameMap, p.2.pivot.isSome ∨ p.2.trim.isSome) ∧
    FrameOverridesStore.fromJSON (JValue.jobj [("3", JValue.jobj
        [("pivot", JValue.jobj [("x", JValue.jnum 1), ("y", JValue.jstr "nope")]),
         ("trim", JValue.jobj [("x", JValue.jnum 0), ("y", JValue.jnum 0),
                               ("w", JValue.jnum 2), ("h", JValue.jnum 2)])])]) =
      .ok ⟨[(3, ⟨none, some ⟨0, 0, 2, 2⟩⟩)]⟩ := by
  refine ⟨?_, ?_, by rfl⟩
  · intro hgood
    rw [FrameOverridesStore.fromJSON]
    by_cases hobj : (v.truthy && v.isObjectType) = true
    · rw [if_pos hobj]
      obtain ⟨m', hm'⟩ := fromJSON_fold_ok v.jsEntries [] hgood
      rw [hm']
      exact ⟨⟨m'⟩, rfl⟩
    · rw [if_neg hobj]
      exact ⟨⟨[]⟩, rfl⟩
  · intro s hs p hp
    rw [FrameOverridesStore.fromJSON] at hs
    by_cases hobj : (v.truthy && v.isObjectType) = true
    · rw [if_pos hobj] at hs
      split at hs
      next m heq =>
        obtain rfl := (Except.ok.injEq _ _).mp hs
        exact fromJSON_fold_sparse v.jsEntries [] m heq (by simp) p hp
      next e heq => exact Except.noConfusion hs
    · rw [if_neg hobj] at hs
      obtain rfl := (Except.ok.injEq _ _).mp hs
      simp at hp

/-! ## Overrides registry (`OverridesRegistry`) -/

/-- `OverridesRegistry`: per-sheet stores keyed by sheet path. -/
structure OverridesRegistry where
  sheets : List (String × FrameOverridesStore)
  deriving DecidableEq, Repr

/-- The `sheets` object of the serialized registry. -/
def sheetsJSON (r : OverridesRegistry) : JValue :=
  .jobj (r.sheets.map fun p => (p.1, p.2.toJSON))

/-- The `version !== undefined && version !== OVERRIDES_VERSION` test
(strict comparison against the current integer version; any non-number,
non-undefined value mismatches). -/
def versionMismatch (version : JValue) : Bool :=
  match version with
  | .undef => false
  | .jnum q => decide (q ≠ OVERRIDES_VERSION)
  | _ => true

/-- One iteration of the sheet-loading loop of
`OverridesRegistry.fromJSON`: skip the `__version` key; parse the sheet's
store inside `try { … } catch {}` so a throwing store drops only that
sheet. -/
def regStep (acc : List (String × FrameOverridesStore)) (kv : String × JValue) :
    List (String × FrameOverridesStore) :=
  if kv.1 = "__version" then acc
  else
    match FrameOverridesStore.fromJSON kv.2 with
    | .ok st => mapSet acc kv.1 st
    | .error _ => acc

namespace OverridesRegistry

/-- `toJSON`: `{ __version: OVERRIDES_VERSION, sheets }`. -/
def toJSON (r : OverridesRegistry) : JValue :=
  .jobj [("__version", .jnum OVERRIDES_VERSION), ("sheets", sheetsJSON r)]

/-- `fromJSON`: reject non-objects; skip the entire load when a stored
version is present and differs from `OVERRIDES_VERSION`; else iterate the
`sheets` object — or, for unversioned legacy data, the object itself. -/
def fromJSON (obj : JValue) : OverridesRegistry :=
  if obj.truthy && obj.isObjectType then
    if versionMismatch (obj.getPropD "__version") then ⟨[]⟩
    else
      let sheets :=
        if (obj.getPropD "sheets").truthy && (obj.getPropD "sheets").isObjectType
        then obj.getPropD "sheets" else obj
      ⟨sheets.jsEntries.foldl regStep []⟩
  else ⟨[]⟩

end OverridesRegistry

/-- Well-formedness of a store as a JS `Map`: distinct keys, plus the
sparseness invariant every store operation maintains. -/
abbrev FrameOverridesStore.WF (s : FrameOverridesStore) : Prop :=
  keysNodup s.frameMap ∧ ∀ p ∈ s.frameMap, p.2.pivot.isSome ∨ p.2.trim.isSome

/-- Well-formedness of a registry: distinct sheet paths, no sheet stored
at the reserved top-level names, and well-formed stores. -/
abbrev OverridesRegistry.WF (r : OverridesRegistry) : Prop :=
  keysNodup r.sheets ∧
  ∀ p ∈ r.sheets, p.1 ≠ "__version" ∧ p.1 ≠ "sheets" ∧ p.2.WF

theorem mapSet_fresh {κ α : Type} [DecidableEq κ] :
    ∀ (m : List (κ × α)) (k : κ) (v : α), mapGet m k = none →
      mapSet m k v = m ++ [(k, v)] := by
  intro m k v
  induction m with
  | nil => intro _; rfl
  | cons q rest ih =>
    obtain ⟨k', v'⟩ := q
    intro h
    rw [mapGet] at h
    by_cases hk : k' = k
    · rw [if_pos hk] at h
      cases h
    · rw [if_neg hk] at h
      rw [mapSet, if_neg hk, ih h]
      rfl

theorem mapGet_append_none {κ α : Type} [DecidableEq κ] :
    ∀ (a : List (κ × α)) (b : List (κ × α)) (k : κ), mapGet a k = none →
      mapGet (a ++ b) k = mapGet b k := by
  intro a b k
  induction a with
  | nil => intro _; rfl
  | cons q rest ih =>
    obtain ⟨k', v'⟩ := q
    intro h
    rw [mapGet] at h
    by_cases hk : k' = k
    · rw [if_pos hk] at h
      cases h
    · rw [if_neg hk] at h
      rw [List.cons_append, mapGet, if_neg hk]
      exact ih h

theorem readPivotJs_toJSON (d : FrameOverrideData) :
    readPivotJs d.toJSON = .ok d.pivot := by
  cases hp : d.pivot <;> cases ht : d.trim <;>
    · rw [FrameOverrideData.toJSON, hp, ht]
      rfl

theorem readTrimJs_toJSON (d : FrameOverrideData) :
    readTrimJs d.toJSON = .ok d.trim := by
  cases hp : d.pivot <;> cases ht : d.trim <;>
    · rw [FrameOverrideData.toJSON, hp, ht]
      rfl

theorem fromJSONStep_toJSON (m : List (Int × FrameOverrideData)) (k : Int)
    (d : FrameOverrideData) (hd : d.pivot.isSome ∨ d.trim.isSome) :
    fromJSONStep m (toString k, d.toJSON) = .ok (mapSet m k d) := by
  simp only [fromJSONStep, parseIntJs_toString_int, readPivotJs_toJSON, readTrimJs_toJSON]
  rw [if_pos (by rcases hd with h | h <;> simp [h])]

theorem store_fold_toJSON :
    ∀ (l acc : List (Int × FrameOverrideData)),
      (∀ p ∈ l, p.2.pivot.isSome ∨ p.2.trim.isSome) →
      keysNodup l →
      (∀ p ∈ l, mapGet acc p.1 = none) →
      (l.map fun p => (toString p.1, p.2.toJSON)).foldlM fromJSONStep acc =
        .ok (acc ++ l) := by
  intro l
  induction l with
  | nil =>
    intro acc _ _ _
    simp
    rfl
  | cons p l ih =>
    intro acc hsp hnd hfresh
    obtain ⟨k, d⟩ := p
    rw [List.map_cons, List.foldlM_cons,
      fromJSONStep_toJSON acc k d (hsp (k, d) (List.mem_cons_self _ _))]
    show (l.map fun p => (toString p.1, p.2.toJSON)).foldlM fromJSONStep (mapSet acc k d) =
      .ok (acc ++ (k, d) :: l)
    rw [mapSet_fresh acc k d (hfresh (k, d) (List.mem_cons_self _ _))]
    obtain ⟨hk, hndl⟩ := List.nodup_cons.mp hnd
    rw [ih (acc ++ [(k, d)]) (fun p hp => hsp p (List.mem_cons_of_mem _ hp)) hndl ?_]
    · rw [List.append_assoc]
      rfl
    · intro p hp
      rw [mapGet_append_none _ _ _ (hfresh p (List.mem_cons_of_mem _ hp))]
      have hpk : k ≠ p.1 := by
        intro he
        exact hk (he ▸ List.mem_map.mpr ⟨p, hp, rfl⟩)
      rw [mapGet, if_neg hpk]
      rfl

theorem store_fromJSON_toJSON (s : FrameOverridesStore) (h : s.WF) :
    FrameOverridesStore.fromJSON s.toJSON = .ok s := by
  obtain ⟨hnd, hsp⟩ := h
  rw [FrameOverridesStore.fromJSON,
    if_pos (show (s.toJSON.truthy && s.toJSON.isObjectType) = true from rfl)]
  have hent : s.toJSON.jsEntries = s.frameMap.map fun p => (toString p.1, p.2.toJSON) := rfl
  rw [hent, store_fold_toJSON s.frameMap [] hsp hnd (fun p _ => rfl)]
  rfl

theorem reg_fold_toJSON :
    ∀ (l acc : List (String × FrameOverridesStore)),
      (∀ p ∈ l, p.1 ≠ "__version" ∧ p.2.WF) →
      keysNodup l →
      (∀ p ∈ l, mapGet acc p.1 = none) →
      (l.map fun p => (p.1, p.2.toJSON)).foldl regStep acc = acc ++ l := by
  intro l
  induction l with
  | nil =>
    intro acc _ _ _
    simp
  | cons p l ih =>
    intro acc hwf hnd hfresh
    obtain ⟨path, st⟩ := p
    rw [List.map_cons, List.foldl_cons]
    have hstep : regStep acc (path, st.toJSON) = acc ++ [(path, st)] := by
      rw [regStep, if_neg (hwf (path, st) (List.mem_cons_self _ _)).1,
        store_fromJSON_toJSON st (hwf (path, st) (List.mem_cons_self _ _)).2]
      exact mapSet_fresh acc path st (hfresh (path, st) (List.mem_cons_self _ _))
    obtain ⟨hk, hndl⟩ := List.nodup_cons.mp hnd
    rw [hstep, ih (acc ++ [(path, st)]) (fun p hp => hwf p (List.mem_cons_of_mem _ hp)) hndl ?_]
    · rw [List.append_assoc]
      rfl
    · intro p hp
      rw [mapGet_append_none _ _ _ (hfresh p (List.mem_cons_of_mem _ hp))]
      have hpk : path ≠ p.1 := by
        intro he
        exact hk (he ▸ List.mem_map.mpr ⟨p, hp, rfl⟩)
      rw [mapGet, if_neg hpk]
      rfl

/-- C7: for a well-formed registry, `fromJSON (toJSON r)` reproduces `r`
exactly (same sheets, same frame entries and field values); a serialized
top-level `__version` different from `OVERRIDES_VERSION` makes `fromJSON`
skip the whole load and return the empty registry; and the unversioned
legacy shape (the bare sheets object) is accepted and reproduces `r`. -/
theorem overrides_registry_roundtrip (r : OverridesRegistry) (h : r.WF) :
    OverridesRegistry.fromJSON r.toJSON = r ∧
    (∀ q : ℚ, q ≠ OVERRIDES_VERSION →
      OverridesRegistry.fromJSON (JValue.jobj
        [("__version", JValue.jnum q), ("sheets", sheetsJSON r)]) = ⟨[]⟩) ∧
    OverridesRegistry.fromJSON (sheetsJSON r) = r := by
  obtain ⟨hnd, hwf⟩ := h
  have hfold : (sheetsJSON r).jsEntries.foldl regStep [] = r.sheets := by
    have hent : (sheetsJSON r).jsEntries = r.sheets.map fun p => (p.1, p.2.toJSON) := rfl
    rw [hent, reg_fold_toJSON r.sheets []
      (fun p hp => ⟨(hwf p hp).1, (hwf p hp).2.2⟩) hnd (fun p _ => rfl)]
    rfl
  refine ⟨?_, ?_, ?_⟩
  · simp only [OverridesRegistry.fromJSON]
    rw [if_pos (show (r.toJSON.truthy && r.toJSON.isObjectType) = true from rfl)]
    have hv : versionMismatch (r.toJSON.getPropD "__version") = false := rfl
    rw [hv]
    simp only [Bool.false_eq_true, if_false]
    have hs : r.toJSON.getPropD "sheets" = sheetsJSON r := rfl
    rw [hs, if_pos (show ((sheetsJSON r).truthy && (sheetsJSON r).isObjectType) = true
      from rfl), hfold]
  · intro q hq
    simp only [OverridesRegistry.fromJSON]
    rw [if_pos (show ((JValue.jobj [("__version", JValue.jnum q),
        ("sheets", sheetsJSON r)]).truthy && (JValue.jobj [("__version", JValue.jnum q),
        ("sheets", sheetsJSON r)]).isObjectType) = true from rfl)]
    have hv : versionMismatch ((JValue.jobj [("__version", JValue.jnum q),
        ("sheets", sheetsJSON r)]).getPropD "__version") = true := by
      show versionMismatch (JValue.jnum q) = true
      exact decide_eq_true hq
    rw [hv, if_pos (show (true = true) from rfl)]
  · have hundef : ∀ name : String, (∀ p ∈ r.sheets, p.1 ≠ name) →
        (sheetsJSON r).getPropD name = JValue.undef := by
      intro name hname
      have hfil : ((r.sheets.map fun p => (p.1, p.2.toJSON)).filter
          fun p => p.1 = name) = [] := by
        rw [List.filter_eq_nil_iff]
        intro p hp
        rcases List.mem_map.mp hp with ⟨q', hq', rfl⟩
        simpa using hname q' hq'
      show ((((r.sheets.map fun p => (p.1, p.2.toJSON)).filter
          fun p => p.1 = name).getLast?).map Prod.snd).getD JValue.undef = JValue.undef
      rw [hfil]
      rfl
    have hv : (sheetsJSON r).getPropD "__version" = JValue.undef :=
      hundef "__version" fun p hp => (hwf p hp).1
    have hs : (sheetsJSON r).getPropD "sheets" = JValue.undef :=
      hundef "sheets" fun p hp => (hwf p hp).2.1
    simp only [OverridesRegistry.fromJSON]
    rw [if_pos (show ((sheetsJSON r).truthy && (sheetsJSON r).isObjectType) = true
      from rfl), hv]
    simp only [versionMismatch, Bool.false_eq_true, if_false]
    rw [hs]
    simp only [JValue.truthy, Bool.false_and, Bool.false_eq_true, if_false]
    rw [hfold]

/-- A concrete registry for the round-trip witness: one sheet with a
pivot-only entry and a trim-only entry. -/
def exRegistry : OverridesRegistry :=
  ⟨[("sheet.png", ⟨[(0, ⟨some ⟨1, 2⟩, none⟩), (3, ⟨none, some ⟨0, 0, 4, 4⟩⟩)]⟩)]⟩

/-- C7 witness: the round-trip theorem applied at a concrete registry,
including a deliberately mismatched version `2` and the unversioned
legacy shape. -/
theorem overrides_registry_roundtrip_witness :
    OverridesRegistry.fromJSON exRegistry.toJSON = exRegistry ∧
    OverridesRegistry.fromJSON (JValue.jobj [("__version", JValue.jnum 2),
      ("sheets", sheetsJSON exRegistry)]) = ⟨[]⟩ ∧
    OverridesRegistry.fromJSON (sheetsJSON exRegistry) = exRegistry :=
  ⟨(overrides_registry_roundtrip exRegistry (by decide)).1,
   (overrides_registry_roundtrip exRegistry (by decide)).2.1 2 (by decide),
   (overrides_registry_roundtrip exRegistry (by decide)).2.2⟩

/-! ## Analysis cache and overlay resolution (renderer state manager) -/

/-- A per-frame `FrameRect {x, y, w, h}` in integral sheet pixels,
supplied by the external grid math. -/
structure FrameRect where
  x : Int
  y : Int
  w : ℕ
  h : ℕ
  deriving DecidableEq, Repr

/-- The frame rect as the structural `{x,y,w,h}` value `computePivot`
receives as its fallback frame. -/
def FrameRect.toBox (r : FrameRect) : Rect4 :=
  ⟨(r.x : ℚ), (r.y : ℚ), (r.w : ℚ), (r.h : ℚ)⟩

/-- One cached `{trim, pivot}` pair; `pivot = none` models the `null` the
strategy-change invalidation writes. -/
structure CacheEntry where
  trim : Option TrimBox
  pivot : Option PivotPoint
  deriving DecidableEq, Repr

/-- The per-sheet `AnalysisCache`: decoded pixels, sheet dimensions, and
the lazy per-frame map. -/
structure AnalysisCache where
  pixels : Int → Option ℕ
  width : ℕ
  height : ℕ
  frameCache : List (ℕ × CacheEntry)

/-- `getFrameAnalysis` of `renderGrid`: when `frameCache.has(frameIndex)`
return the cached entry as is; otherwise compute trim and pivot, store
them, and return the stored entry. -/
def getFrameAnalysis (c : AnalysisCache) (strategy : String) (frameIndex : ℕ)
    (r : FrameRect) : AnalysisCache × Option CacheEntry :=
  if (mapGet c.frameCache frameIndex).isSome then (c, mapGet c.frameCache frameIndex)
  else
    let trim := FrameAnalyzer.computeTrim c.pixels r.w r.h (c.width : Int) r.x r.y 1
    let pivot := FrameAnalyzer.computePivot trim strategy r.toBox
    let c' : AnalysisCache :=
      { c with frameCache := mapSet c.frameCache frameIndex ⟨trim, some pivot⟩ }
    (c', mapGet c'.frameCache frameIndex)

/-- The pivot-strategy `onChange` invalidation:
`frameCache.forEach((v,k) => frameCache.set(k, { trim: v.trim, pivot: null }))`. -/
def invalidatePivotsOnly (c : AnalysisCache) : AnalysisCache :=
  { c with frameCache := c.frameCache.map fun kv => (kv.1, ⟨kv.2.trim, none⟩) }

/-- Trim overlay precedence of `renderGrid`: the drawn box is
`oTrim || autoTrim` with `autoTrim = analysis?.trim`; nothing is drawn
when both are absent. -/
def resolveTrimOverlay (oTrim : Option TrimOverride) (analysis : Option CacheEntry) :
    Option Rect4 :=
  match oTrim with
  | some t => some t
  | none =>
      match analysis with
      | some e => e.trim
      | none => none

/-- Pivot overlay precedence of `renderGrid`:
`pivotToShow = oPivot || (analysis && analysis.pivot)`. -/
def resolvePivotOverlay (oPivot : Option PivotOverride) (analysis : Option CacheEntry) :
    Option PivotPoint :=
  match oPivot with
  | some p => some p
  | none =>
      match analysis with
      | some e => e.pivot
      | none => none

/-- The effective trim the overlay shows for a frame. -/
def effectiveTrim (ov : FrameOverridesStore) (c : AnalysisCache) (strategy : String)
    (frameIndex : ℕ) (r : FrameRect) : Option Rect4 :=
  resolveTrimOverlay (ov.getTrim (frameIndex : Int))
    (getFrameAnalysis c strategy frameIndex r).2

/-- The effective pivot the overlay shows for a frame. -/
def effectivePivot (ov : FrameOverridesStore) (c : AnalysisCache) (strategy : String)
    (frameIndex : ℕ) (r : FrameRect) : Option PivotPoint :=
  resolvePivotOverlay (ov.getPivot (frameIndex : Int))
    (getFrameAnalysis c strategy frameIndex r).2

theorem getTrim_setPivot (s : FrameOverridesStore) (f : Int) (p : PivotOverride) :
    (s.setPivot f p).getTrim f = s.getTrim f := by
  rw [FrameOverridesStore.setPivot, FrameOverridesStore.getTrim, FrameOverridesStore.getTrim]
  rw [mapGet_set_self]
  cases h : mapGet s.frameMap f <;> simp [h]

theorem getPivot_setTrim (s : FrameOverridesStore) (f : Int) (t : TrimOverride) :
    (s.setTrim f t).getPivot f = s.getPivot f := by
  rw [FrameOverridesStore.setTrim, FrameOverridesStore.getPivot, FrameOverridesStore.getPivot]
  rw [mapGet_set_self]
  cases h : mapGet s.frameMap f <;> simp [h]

/-- Fully transparent example pixels (every alpha byte 0). -/
def blankPixels : Int → Option ℕ := fun idx =>
  if 0 ≤ idx ∧ idx < 64 * 32 * 4 then some 0 else none

/-- C1 counterexample: with no override and a fully transparent frame the
effective trim is nothing — not the full `FrameRect` the claim's
last-resort fallback requires. -/
theorem effectiveTrim_no_fullframe_fallback :
    effectiveTrim ⟨[]⟩ ⟨blankPixels, 64, 32, []⟩ "center" 0 ⟨0, 0, 8, 8⟩ = none ∧
    (none : Option Rect4) ≠ some (FrameRect.toBox ⟨0, 0, 8, 8⟩) := by
  constructor
  · rfl
  · decide

/-- C1 amended: each field resolves independently, the manual override
first, else the cached auto value (computed lazily on a miss).  The
full-frame fallback exists only inside the auto pivot — `computePivot`
falls back to the frame rect when the trim is `null` — while the trim has
no full-frame fallback: with no override and no auto trim, nothing is
resolved. -/
theorem effective_resolution_spec (ov : FrameOverridesStore) (c : AnalysisCache)
    (strategy : String) (frameIndex : ℕ) (r : FrameRect) :
    (∀ t, ov.getTrim (frameIndex : Int) = some t →
      effectiveTrim ov c strategy frameIndex r = some t) ∧
    (∀ p, ov.getPivot (frameIndex : Int) = some p →
      effectivePivot ov c strategy frameIndex r = some p) ∧
    (∀ e, ov.getTrim (frameIndex : Int) = none →
      mapGet c.frameCache frameIndex = some e →
      effectiveTrim ov c strategy frameIndex r = e.trim) ∧
    (∀ e, ov.getPivot (frameIndex : Int) = none →
      mapGet c.frameCache frameIndex = some e →
      effectivePivot ov c strategy frameIndex r = e.pivot) ∧
    (ov.getTrim (frameIndex : Int) = none → mapGet c.frameCache frameIndex = none →
      effectiveTrim ov c strategy frameIndex r =
        FrameAnalyzer.computeTrim c.pixels r.w r.h (c.width : Int) r.x r.y 1) ∧
    (ov.getPivot (frameIndex : Int) = none → mapGet c.frameCache frameIndex = none →
      effectivePivot ov c strategy frameIndex r =
        some (FrameAnalyzer.computePivot
          (FrameAnalyzer.computeTrim c.pixels r.w r.h (c.width : Int) r.x r.y 1)
          strategy r.toBox)) ∧
    (∀ p : PivotOverride,
      effectiveTrim (ov.setPivot (frameIndex : Int) p) c strategy frameIndex r =
        effectiveTrim ov c strategy frameIndex r) ∧
    (∀ t : TrimOverride,
      effectivePivot (ov.setTrim (frameIndex : Int) t) c strategy frameIndex r =
        effectivePivot ov c strategy frameIndex r) := by
  refine ⟨?_, ?_, ?_, ?_, ?_, ?_, ?_, ?_⟩
  · intro t ht
    rw [effectiveTrim, ht]
    rfl
  · intro p hp
    rw [effectivePivot, hp]
    rfl
  · intro e hov hc
    rw [effectiveTrim, hov, getFrameAnalysis, if_pos (by simp [hc]), hc]
    rfl
  · intro e hov hc
    rw [effectivePivot, hov, getFrameAnalysis, if_pos (by simp [hc]), hc]
    rfl
  · intro hov hc
    rw [effectiveTrim, hov, getFrameAnalysis, if_neg (by simp [hc])]
    show resolveTrimOverlay none (mapGet (mapSet c.frameCache frameIndex _) frameIndex) = _
    rw [mapGet_set_self]
    rfl
  · intro hov hc
    rw [effectivePivot, hov, getFrameAnalysis, if_neg (by simp [hc])]
    show resolvePivotOverlay none (mapGet (mapSet c.frameCache frameIndex _) frameIndex) = _
    rw [mapGet_set_self]
    rfl
  · intro p
    rw [effectiveTrim, effectiveTrim, getTrim_setPivot]
  · intro t
    rw [effectivePivot, effectivePivot, getPivot_setTrim]

/-- The analysis cache of the C9 demonstration: frame 0 cached with the
computed trim and `center` pivot of the example sheet. -/
def exCache : AnalysisCache :=
  ⟨examplePixels, 64, 32, [(0, ⟨some ⟨2, 2, 6, 6⟩, some ⟨5, 5⟩⟩)]⟩

/-- C9: the strategy-change invalidation indeed keeps every cached trim
and clears every cached pivot, but a subsequent read does NOT recompute
the cleared pivot: `getFrameAnalysis` only checks entry presence, so it
returns the entry with `pivot: null` and leaves the cache unchanged,
although recomputing would produce the strategy's pivot. -/
theorem invalidatePivots_read_stale :
    (∀ (c : AnalysisCache) (k : ℕ),
      (mapGet (invalidatePivotsOnly c).frameCache k).map CacheEntry.trim =
        (mapGet c.frameCache k).map CacheEntry.trim ∧
      ∀ e, mapGet (invalidatePivotsOnly c).frameCache k = some e → e.pivot = none) ∧
    (getFrameAnalysis (invalidatePivotsOnly exCache) "center" 0 ⟨0, 0, 8, 8⟩).2 =
      some ⟨some ⟨2, 2, 6, 6⟩, none⟩ ∧
    (getFrameAnalysis (invalidatePivotsOnly exCache) "center" 0 ⟨0, 0, 8, 8⟩).1.frameCache =
      (invalidatePivotsOnly exCache).frameCache ∧
    FrameAnalyzer.computePivot (some ⟨2, 2, 6, 6⟩) "center" (FrameRect.toBox ⟨0, 0, 8, 8⟩) =
      ⟨5, 5⟩ := by
  refine ⟨?_, rfl, rfl, ?_⟩
  · intro c k
    constructor
    · rw [invalidatePivotsOnly]
      show (mapGet (c.frameCache.map fun kv =>
        (kv.1, (fun v => (⟨v.trim, none⟩ : CacheEntry)) kv.2)) k).map CacheEntry.trim = _
      rw [mapGet_map_snd c.frameCache (fun v => (⟨v.trim, none⟩ : CacheEntry)) k]
      cases h : mapGet c.frameCache k <;> simp [h]
    · intro e he
      rw [invalidatePivotsOnly] at he
      have he' : (mapGet c.frameCache k).map (fun v => (⟨v.trim, none⟩ : CacheEntry)) =
          some e := by
        rw [← mapGet_map_snd]
        exact he
      cases h : mapGet c.frameCache k with
      | none =>
        rw [h] at he'
        exact absurd he' (by simp)
      | some v =>
        rw [h] at he'
        obtain rfl := (Option.some.injEq _ _).mp he'
        rfl
  · norm_num [FrameAnalyzer.computePivot]
    decide

end SpriteCore
